import Mathlib

/-!
The Patricia tries of `dict4.c` and `main.c` and the edit distance of
`edit_distance.c`: a shallow embedding

The C programs keep their trie in malloc'ed `patricia_node` cells linked by raw
pointers, with self-pointers and back-pointers used as leaf markers.  The
embedding keeps that pointer graph explicit:

* a pointer is `Option Nat` (`none` is `NULL`, `some a` is the address of the
  `a`-th cell ever allocated);
* the heap is the list of cells in allocation order, `malloc` appends a cell;
* a key (`char *`) is the list of its bytes before the terminating NUL; the
  storage of a `strdup`'ed key is those bytes plus the terminator, and a read
  past the terminator is a fault; a query key held in the driver's
  `char search_key[1024]` has the rest of that buffer behind its terminator
  (`Dict4.InBuffer`);
* `int` diffs are natural numbers and the `int` counters are unbounded integers:
  no key of the program is anywhere near the 2^28 bytes that would overflow
  `minLength * 8`; overflow of a counter is not modelled, the counters of the
  model are those of the code as long as they fit an `int`
  (`comparison_tracker.fitsInt`);
* every function that takes a `comparison_tracker *` takes the tracker value
  and returns the updated one;
* loops carry a fuel argument; running out of fuel is reported as its own
  fault and is proved not to happen where a result is claimed.

`Dict4` is the instrumented trie of `dict4.c`, `MainC` the trie of `main.c`
(the same cells, no counters), `EditDistance` the table-filling routine of
`edit_distance.c` together with the spec's notion of Levenshtein distance.
-/

namespace Dict4

/-- What can go wrong in a run of the C code. -/
inductive Fault where
  /-- a `NULL` (or never allocated) pointer is dereferenced -/
  | nullDeref
  /-- a byte past the terminator of a key is read -/
  | outOfBounds
  /-- an `assert` fails -/
  | assertFail
  /-- the fuel of a loop or of a recursion of the model is used up -/
  | outOfFuel
  deriving DecidableEq, Repr

/-- Result of a run: a value or a fault. -/
inductive Run (α : Type) where
  | ok (a : α)
  | error (f : Fault)
  deriving DecidableEq, Repr

/-- The value of a run seen through `g`; a fault stays the fault it is. -/
def Run.map {α β : Type} (g : α → β) : Run α → Run β
  | .ok a => .ok (g a)
  | .error f => .error f

/-- A `char *` key: its bytes up to, not including, the terminating NUL. -/
abbrev Key := List Nat

/-- A key as the program can receive it: no byte is NUL, every byte fits a `char`. -/
def WellFormedKey (k : Key) : Prop := ∀ b ∈ k, 0 < b ∧ b < 256

instance (k : Key) : Decidable (WellFormedKey k) := by
  unfold WellFormedKey
  infer_instance

/-- A node pointer: `none` is `NULL`, `some a` the address of cell `a`. -/
abbrev Ptr := Option Nat

/-- `suburb_data *`: the record a node carries, identified by a number. -/
abbrev suburb_data := Nat

/-- `comparison_tracker` of dict4.c, lines 23-27. -/
structure comparison_tracker where
  bit_comparisons : Int
  node_accesses : Int
  string_comparisons : Int
  deriving DecidableEq, Repr

/-- `patricia_node` of dict4.c, lines 30-36. -/
structure patricia_node where
  key : Key
  diff : Nat
  value : suburb_data
  left : Ptr
  right : Ptr
  deriving DecidableEq, Repr

/-- The allocated cells, in allocation order. -/
abbrev Heap := List patricia_node

/-- `BITS_PER_BYTE` of dict4.c, line 63. -/
def BITS_PER_BYTE : Nat := 8

/-- `s[byte]` read as `unsigned char`: a byte of the key, the terminator right
after it, a fault further out. -/
def readByte (s : Key) (byte : Nat) : Run Nat :=
  if byte < s.length then .ok (s.getD byte 0 % 256)
  else if byte = s.length then .ok 0
  else .error .outOfBounds

/-- `getBit` of dict4.c, lines 66-79. -/
def getBit (s : Key) (bitIndex : Nat) (tracker : comparison_tracker) :
    Run (Nat × comparison_tracker) :=
  let byte := bitIndex / BITS_PER_BYTE
  let indexFromLeft := bitIndex % BITS_PER_BYTE
  let offset := (BITS_PER_BYTE - indexFromLeft - 1) % BITS_PER_BYTE
  match readByte s byte with
  | .error f => .error f
  | .ok byteOfInterest =>
    let offsetMask := 1 <<< offset
    let maskedByte := byteOfInterest &&& offsetMask
    let bitOnly := maskedByte >>> offset
    .ok (bitOnly, { tracker with bit_comparisons := tracker.bit_comparisons + 1 })

/-- The `for` loop of `compute_diff`, dict4.c lines 93-99, started at index `i`. -/
def compute_diff_loop (key1 key2 : Key) (minLength : Nat) :
    Nat → Nat → comparison_tracker → Run (Nat × comparison_tracker)
  | 0, _, _ => .error .outOfFuel
  | fuel + 1, i, tracker =>
    if i < minLength * BITS_PER_BYTE then
      match getBit key1 i tracker with
      | .error f => .error f
      | .ok (bit1, tracker1) =>
        match getBit key2 i tracker1 with
        | .error f => .error f
        | .ok (bit2, tracker2) =>
          if bit1 ≠ bit2 then .ok (i, tracker2)
          else compute_diff_loop key1 key2 minLength fuel (i + 1) tracker2
    else .ok (minLength * BITS_PER_BYTE, tracker)

/-- `compute_diff` of dict4.c, lines 82-102.  A `NULL` key is `none`. -/
def compute_diff (key1 key2 : Option Key) (tracker : comparison_tracker) :
    Run (Nat × comparison_tracker) :=
  match key1, key2 with
  | none, none => .error .assertFail
  | none, some _ => .ok (0, tracker)
  | some _, none => .error .nullDeref
  | some k1, some k2 =>
    let len1 := k1.length
    let len2 := k2.length
    let minLength := if len1 < len2 then len1 else len2
    compute_diff_loop k1 k2 minLength (minLength * BITS_PER_BYTE + 1) 0 tracker

/-- `p->...`: the cell a pointer addresses; `NULL` and unallocated addresses fault. -/
def deref (h : Heap) (p : Ptr) : Run patricia_node :=
  match p with
  | none => .error .nullDeref
  | some a =>
    match h.get? a with
    | none => .error .nullDeref
    | some node => .ok node

/-- `create_node` of dict4.c, lines 105-113: the heap with the new cell, and its address. -/
def create_node (h : Heap) (key : Key) (value : suburb_data) (diff : Nat) : Heap × Nat :=
  (h ++ [{ key := key, diff := diff, value := value, left := none, right := none }], h.length)

/-- The descent loop `while (parent->diff < child->diff) { ... }`, which is the
same text in `insert_node` (dict4.c lines 127-136) and in `search_node`
(lines 182-191).  Returns the final `parent`, `child` and tracker. -/
def descend (h : Heap) (key : Key) :
    Nat → Nat → Ptr → comparison_tracker → Run (Nat × Ptr × comparison_tracker)
  | 0, _, _, _ => .error .outOfFuel
  | fuel + 1, parent, child, tracker =>
    match deref h (some parent) with
    | .error f => .error f
    | .ok p =>
      match child with
      | none => .error .nullDeref
      | some ca =>
        match deref h (some ca) with
        | .error f => .error f
        | .ok c =>
          if p.diff < c.diff then
            let tracker1 := { tracker with node_accesses := tracker.node_accesses + 1 }
            match getBit key c.diff tracker1 with
            | .error f => .error f
            | .ok (bit, tracker2) =>
              if bit = 0 then descend h key fuel ca c.left tracker2
              else descend h key fuel ca c.right tracker2
          else .ok (parent, child, tracker)

/-- `insert_node` of dict4.c, lines 115-169: the new heap, the returned root and
the tracker. -/
def insert_node (h : Heap) (root : Ptr) (key : Key) (value : suburb_data)
    (tracker : comparison_tracker) : Run (Heap × Ptr × comparison_tracker) :=
  match root with
  | none =>
    match compute_diff none (some key) tracker with
    | .error f => .error f
    | .ok (diff, tracker1) =>
      let (h1, r) := create_node h key value diff
      match deref h1 (some r) with
      | .error f => .error f
      | .ok node => .ok (h1.set r { node with left := some r }, some r, tracker1)
  | some r =>
    match deref h (some r) with
    | .error f => .error f
    | .ok rootNode =>
      match descend h key h.length r rootNode.left tracker with
      | .error f => .error f
      | .ok (parent, child, tracker1) =>
        match child with
        | none => .error .nullDeref
        | some ca =>
        match deref h (some ca) with
        | .error f => .error f
        | .ok c =>
          match compute_diff (some c.key) (some key) tracker1 with
          | .error f => .error f
          | .ok (diff, tracker2) =>
            let tracker3 :=
              { tracker2 with string_comparisons := tracker2.string_comparisons + 1 }
            if diff = 0 then
              .ok (h.set ca { c with value := value }, root, tracker3)
            else
              let (h1, nn) := create_node h key value diff
              match getBit key diff tracker3 with
              | .error f => .error f
              | .ok (bit, tracker4) =>
                match deref h1 (some nn) with
                | .error f => .error f
                | .ok newNode =>
                  let h2 :=
                    if bit = 0 then
                      h1.set nn { newNode with left := child, right := some nn }
                    else
                      h1.set nn { newNode with left := some nn, right := child }
                  match deref h2 (some parent) with
                  | .error f => .error f
                  | .ok p =>
                    match getBit key p.diff tracker4 with
                    | .error f => .error f
                    | .ok (bit2, tracker5) =>
                      if bit2 = 0 then
                        .ok (h2.set parent { p with left := some nn }, root, tracker5)
                      else
                        .ok (h2.set parent { p with right := some nn }, root, tracker5)

/-- `search_node` of dict4.c, lines 171-200: the returned pointer and the
tracker.  `strcmp(child->key, key) == 0` is equality of the two byte lists.
The function stores to no node, so the heap after the call is the heap before. -/
def search_node (h : Heap) (root : Ptr) (key : Key) (tracker : comparison_tracker) :
    Run (Ptr × comparison_tracker) :=
  match root with
  | none => .ok (none, tracker)
  | some r =>
    let tracker0 := { tracker with node_accesses := tracker.node_accesses + 1 }
    match deref h (some r) with
    | .error f => .error f
    | .ok rootNode =>
      match descend h key h.length r rootNode.left tracker0 with
      | .error f => .error f
      | .ok (_, child, tracker1) =>
        let tracker2 :=
          { tracker1 with string_comparisons := tracker1.string_comparisons + 1 }
        match deref h child with
        | .error f => .error f
        | .ok c => if c.key = key then .ok (child, tracker2) else .ok (none, tracker2)

/-- `print_patricia_trie` of dict4.c, lines 202-244.  Each visit writes one block
to the file (the record, or the "Invalid node data" line); the model appends the
address of the visited node to the output.  The fuel bounds the recursion depth. -/
def print_patricia_trie (h : Heap) : Nat → Ptr → List Nat → Run (List Nat)
  | 0, _, _ => .error .outOfFuel
  | _ + 1, none, out => .ok out
  | fuel + 1, some r, out =>
    match deref h (some r) with
    | .error f => .error f
    | .ok node =>
      match (if node.left ≠ some r then print_patricia_trie h fuel node.left out
             else .ok out) with
      | .error f => .error f
      | .ok out1 =>
        let out2 := out1 ++ [r]
        if node.right ≠ some r then print_patricia_trie h fuel node.right out2
        else .ok out2

/-- The state the driver holds between calls: heap, `root` and the tracker. -/
structure State where
  heap : Heap
  root : Ptr
  tracker : comparison_tracker
  deriving DecidableEq, Repr

/-- The driver's start: nothing allocated, `root = NULL`, tracker `{0, 0, 0}`
(dict4.c lines 279-282). -/
def State.empty : State :=
  { heap := [], root := none, tracker := { bit_comparisons := 0, node_accesses := 0, string_comparisons := 0 } }

/-- One `root = insert_node(root, key, value, &tracker)` of the driver. -/
def State.insert (s : State) (key : Key) (value : suburb_data) : Run State :=
  match insert_node s.heap s.root key value s.tracker with
  | .error f => .error f
  | .ok (h, r, t) => .ok { heap := h, root := r, tracker := t }

/-- The driver's insertion loop (dict4.c lines 295-300) over a list of
(key, record) pairs, from a given state. -/
def insert_all : State → List (Key × suburb_data) → Run State
  | s, [] => .ok s
  | s, (k, v) :: rest =>
    match s.insert k v with
    | .error f => .error f
    | .ok s1 => insert_all s1 rest

/-- The trie built from the empty one by inserting the pairs in order. -/
def build (kvs : List (Key × suburb_data)) : Run State := insert_all State.empty kvs

/-- One `search_node(root, key, &tracker)` of the driver: the returned pointer. -/
def State.search (s : State) (key : Key) : Run Ptr :=
  match search_node s.heap s.root key s.tracker with
  | .error f => .error f
  | .ok (p, _) => .ok p

/-- The record `result->value` behind a returned pointer, `none` for `NULL`. -/
def valueAt (h : Heap) (p : Ptr) : Option suburb_data :=
  match p with
  | none => none
  | some a => (h.get? a).map (fun node => node.value)

/-- Componentwise sum of two trackers. -/
def comparison_tracker.add (a b : comparison_tracker) : comparison_tracker :=
  { bit_comparisons := a.bit_comparisons + b.bit_comparisons
    node_accesses := a.node_accesses + b.node_accesses
    string_comparisons := a.string_comparisons + b.string_comparisons }

/-- Componentwise difference of two trackers. -/
def comparison_tracker.sub (a b : comparison_tracker) : comparison_tracker :=
  { bit_comparisons := a.bit_comparisons - b.bit_comparisons
    node_accesses := a.node_accesses - b.node_accesses
    string_comparisons := a.string_comparisons - b.string_comparisons }

/-- The tracker `{0, 0, 0}` the driver starts from. -/
def comparison_tracker.zero : comparison_tracker :=
  { bit_comparisons := 0, node_accesses := 0, string_comparisons := 0 }

/-- Bit `bitIndex` of a key as the spec reads it (section 4.1): counted from the
most significant bit of the first byte, most significant bit first within each
byte; the byte right after the key is the terminator, all of whose bits are 0. -/
def specBit (s : Key) (bitIndex : Nat) : Bool :=
  (s.getD (bitIndex / 8) 0).testBit (7 - bitIndex % 8)

/-- The heap `insert_node` leaves after "a" (record 1) and then "b" (record 2) are
inserted into the empty trie: the root cell for "a" at address 0, the cell for "b"
at address 1. -/
def heap_a_b : Heap :=
  [{ key := [97], diff := 0, value := 1, left := some 1, right := none },
   { key := [98], diff := 6, value := 2, left := some 1, right := some 0 }]

/-- What every heap grown by `insert_node` from the empty trie looks like: the cell
at address 0 (the root) is the only one with diff 0, every cell's `left` points to an
allocated cell, and so does the `right` of every cell but the root (`create_node`
leaves the root's `right` `NULL`). -/
def Shaped (h : Heap) : Prop :=
  0 < h.length ∧
  ∀ (a : Nat) (node : patricia_node), h[a]? = some node →
    (node.diff = 0 ↔ a = 0)
    ∧ (∃ l, node.left = some l ∧ l < h.length)
    ∧ (0 < a → ∃ r, node.right = some r ∧ r < h.length)

/-- The state of a trie between two calls of the driver: nothing allocated and
`root = NULL`, or the root at address 0 of a heap of the shape above. -/
def TrieInv (h : Heap) (root : Ptr) : Prop :=
  (h = [] ∧ root = none) ∨ (root = some 0 ∧ Shaped h)

/-- The state after "abc" (record 1) and then "abd" (record 2) are inserted into the
empty trie: the node of "abd" has diff 21, a bit of the third byte. -/
def state_abc_abd : State :=
  { heap :=
      [{ key := [97, 98, 99], diff := 0, value := 1, left := some 1, right := none },
       { key := [97, 98, 100], diff := 21, value := 2, left := some 1, right := some 0 }]
    root := some 0
    tracker := { bit_comparisons := 46, node_accesses := 0, string_comparisons := 1 } }

/-- The bytes of "a". -/
def key_a : Key := [97]
/-- The bytes of "b". -/
def key_b : Key := [98]
/-- The bytes of "A". -/
def key_A : Key := [65]
/-- The bytes of "Ab". -/
def key_Ab : Key := [65, 98]
/-- The bytes of "Ac". -/
def key_Ac : Key := [65, 99]
/-- The bytes of "abc". -/
def key_abc : Key := [97, 98, 99]
/-- The bytes of "abd". -/
def key_abd : Key := [97, 98, 100]
/-- The bytes of "Carlton". -/
def key_Carlton : Key := [67, 97, 114, 108, 116, 111, 110]
/-- The bytes of "Carlton North". -/
def key_Carlton_North : Key := [67, 97, 114, 108, 116, 111, 110, 32, 78, 111, 114, 116, 104]
/-- The bytes of "Parkville". -/
def key_Parkville : Key := [80, 97, 114, 107, 118, 105, 108, 108, 101]
/-- The bytes of "Brunswick". -/
def key_Brunswick : Key := [66, 114, 117, 110, 115, 119, 105, 99, 107]

/-- The bytes of the one-byte key 0xE1 (its first bit is 1). -/
def key_E1 : Key := [225]

/-- The bytes of "aa". -/
def key_aa : Key := [97, 97]

/-- The nodes the descent loop moves into, in order.  It is the loop of `descend`
(dict4.c lines 127-136 and 182-191) once more, recording each new `parent` where
`descend` records the counters. -/
def descend_trace (h : Heap) (key : Key) : Nat → Nat → Ptr → Run (List Nat)
  | 0, _, _ => .error .outOfFuel
  | fuel + 1, parent, child =>
    match deref h (some parent) with
    | .error f => .error f
    | .ok p =>
      match child with
      | none => .error .nullDeref
      | some ca =>
        match deref h (some ca) with
        | .error f => .error f
        | .ok c =>
          if p.diff < c.diff then
            match getBit key c.diff comparison_tracker.zero with
            | .error f => .error f
            | .ok (bit, _) =>
              match (if bit = 0 then descend_trace h key fuel ca c.left
                     else descend_trace h key fuel ca c.right) with
              | .error f => .error f
              | .ok path => .ok (ca :: path)
          else .ok []

/-- The nodes one `search_node` call visits: none on the empty trie, else the root
and then every node the descent loop moves into. -/
def search_path (h : Heap) (root : Ptr) (key : Key) : Run (List Nat) :=
  match root with
  | none => .ok []
  | some r =>
    match deref h (some r) with
    | .error f => .error f
    | .ok rootNode =>
      match descend_trace h key h.length r rootNode.left with
      | .error f => .error f
      | .ok path => .ok (r :: path)

/-- The diff stored in the cell at an address (0 for an address never allocated). -/
def diffAt (h : Heap) (a : Nat) : Nat :=
  match h.get? a with
  | none => 0
  | some node => node.diff

/-- `free_patricia_trie` of dict4.c, lines 246-265.  The model returns the addresses
released by `free(root)`, in the order of the calls, after those in `freed`; an
address that occurs twice is a cell released twice.  The fuel bounds the recursion
depth. -/
def free_patricia_trie (h : Heap) : Nat → Ptr → List Nat → Run (List Nat)
  | 0, _, _ => .error .outOfFuel
  | _ + 1, none, freed => .ok freed
  | fuel + 1, some r, freed =>
    match deref h (some r) with
    | .error f => .error f
    | .ok node =>
      match (if node.left ≠ some r then free_patricia_trie h fuel node.left freed
             else .ok freed) with
      | .error f => .error f
      | .ok freed1 =>
        match (if node.right ≠ some r then free_patricia_trie h fuel node.right freed1
               else .ok freed1) with
        | .error f => .error f
        | .ok freed2 => .ok (freed2 ++ [r])

/-- The range of a C `int` (32 bits, two's complement): `INT_MIN ≤ x ≤ INT_MAX`. -/
def fitsInt (x : Int) : Prop := -2147483648 ≤ x ∧ x ≤ 2147483647

instance (x : Int) : Decidable (fitsInt x) := by
  unfold fitsInt
  infer_instance

/-- Every counter of the tracker is a value the `int` field of the C struct can
hold.  Between two such trackers the unbounded counters of the model are the
counters of the code. -/
def comparison_tracker.fitsInt (t : comparison_tracker) : Prop :=
  Dict4.fitsInt t.bit_comparisons ∧ Dict4.fitsInt t.node_accesses
    ∧ Dict4.fitsInt t.string_comparisons

instance (t : comparison_tracker) : Decidable t.fitsInt := by
  unfold comparison_tracker.fitsInt
  infer_instance

/-- No counter of `a` is above the same counter of `b`. -/
def comparison_tracker.le (a b : comparison_tracker) : Prop :=
  a.bit_comparisons ≤ b.bit_comparisons ∧ a.node_accesses ≤ b.node_accesses
    ∧ a.string_comparisons ≤ b.string_comparisons

/-- The size of the driver's two line buffers, `char line[1024]` for a CSV row
(dict4.c line 290) and `char search_key[1024]` for a query (line 323). -/
def LINE_BUFFER_SIZE : Nat := 1024

end Dict4

/-! `search_node` as the driver calls it (dict4.c line 327): the query key is not a
`strdup`'ed string of its own size but sits at the start of `char search_key[1024]`,
so the bytes after its terminator are bytes of the buffer, not a fault.  `rest` is
what the buffer holds after the key's terminator. -/

namespace Dict4.InBuffer

/-- `s[byte]` read as `unsigned char`, for a key `s` at the start of a buffer that
holds `s`, its terminator and then `rest`: a read past the buffer is a fault.  With
`rest = []` this is `Dict4.readByte`. -/
def readByte (s : Key) (rest : List Nat) (byte : Nat) : Run Nat :=
  if byte < s.length then .ok (s.getD byte 0 % 256)
  else if byte = s.length then .ok 0
  else if byte - s.length - 1 < rest.length then
    .ok (rest.getD (byte - s.length - 1) 0 % 256)
  else .error .outOfBounds

/-- `getBit` of dict4.c, lines 66-79, on a key in a buffer. -/
def getBit (s : Key) (rest : List Nat) (bitIndex : Nat) (tracker : comparison_tracker) :
    Run (Nat × comparison_tracker) :=
  let byte := bitIndex / BITS_PER_BYTE
  let indexFromLeft := bitIndex % BITS_PER_BYTE
  let offset := (BITS_PER_BYTE - indexFromLeft - 1) % BITS_PER_BYTE
  match readByte s rest byte with
  | .error f => .error f
  | .ok byteOfInterest =>
    let offsetMask := 1 <<< offset
    let maskedByte := byteOfInterest &&& offsetMask
    let bitOnly := maskedByte >>> offset
    .ok (bitOnly, { tracker with bit_comparisons := tracker.bit_comparisons + 1 })

/-- The descent loop of `search_node`, dict4.c lines 182-191, on a key in a buffer. -/
def descend (h : Heap) (key : Key) (rest : List Nat) :
    Nat → Nat → Ptr → comparison_tracker → Run (Nat × Ptr × comparison_tracker)
  | 0, _, _, _ => .error .outOfFuel
  | fuel + 1, parent, child, tracker =>
    match deref h (some parent) with
    | .error f => .error f
    | .ok p =>
      match child with
      | none => .error .nullDeref
      | some ca =>
        match deref h (some ca) with
        | .error f => .error f
        | .ok c =>
          if p.diff < c.diff then
            let tracker1 := { tracker with node_accesses := tracker.node_accesses + 1 }
            match getBit key rest c.diff tracker1 with
            | .error f => .error f
            | .ok (bit, tracker2) =>
              if bit = 0 then descend h key rest fuel ca c.left tracker2
              else descend h key rest fuel ca c.right tracker2
          else .ok (parent, child, tracker)

/-- `search_node` of dict4.c, lines 171-200, on a key in a buffer.  `strcmp` stops at
the key's terminator, so it compares the stored key with `key`. -/
def search_node (h : Heap) (root : Ptr) (key : Key) (rest : List Nat)
    (tracker : comparison_tracker) : Run (Ptr × comparison_tracker) :=
  match root with
  | none => .ok (none, tracker)
  | some r =>
    let tracker0 := { tracker with node_accesses := tracker.node_accesses + 1 }
    match deref h (some r) with
    | .error f => .error f
    | .ok rootNode =>
      match descend h key rest h.length r rootNode.left tracker0 with
      | .error f => .error f
      | .ok (_, child, tracker1) =>
        let tracker2 :=
          { tracker1 with string_comparisons := tracker1.string_comparisons + 1 }
        match deref h child with
        | .error f => .error f
        | .ok c => if c.key = key then .ok (child, tracker2) else .ok (none, tracker2)

end Dict4.InBuffer

/-! The uninstrumented trie of `main.c`: the same cells, keys and faults, no
`comparison_tracker`. -/

namespace MainC

open Dict4 (Run Fault Key Ptr suburb_data patricia_node Heap readByte deref)

/-- `BITS_PER_BYTE` of main.c, line 58. -/
def BITS_PER_BYTE : Nat := 8

/-- `getBit` of main.c, lines 61-72. -/
def getBit (s : Key) (bitIndex : Nat) : Run Nat :=
  let byte := bitIndex / BITS_PER_BYTE
  let indexFromLeft := bitIndex % BITS_PER_BYTE
  let offset := (BITS_PER_BYTE - indexFromLeft - 1) % BITS_PER_BYTE
  match readByte s byte with
  | .error f => .error f
  | .ok byteOfInterest =>
    let offsetMask := 1 <<< offset
    let maskedByte := byteOfInterest &&& offsetMask
    let bitOnly := maskedByte >>> offset
    .ok bitOnly

/-- The `for` loop of `compute_diff`, main.c lines 89-96, started at index `i`. -/
def compute_diff_loop (key1 key2 : Key) (minLength : Nat) : Nat → Nat → Run Nat
  | 0, _ => .error .outOfFuel
  | fuel + 1, i =>
    if i < minLength * BITS_PER_BYTE then
      match getBit key1 i with
      | .error f => .error f
      | .ok bit1 =>
        match getBit key2 i with
        | .error f => .error f
        | .ok bit2 =>
          if bit1 ≠ bit2 then .ok i
          else compute_diff_loop key1 key2 minLength fuel (i + 1)
    else .ok (minLength * BITS_PER_BYTE)

/-- `compute_diff` of main.c, lines 75-100.  A `NULL` key is `none`. -/
def compute_diff (key1 key2 : Option Key) : Run Nat :=
  match key1, key2 with
  | none, none => .error .assertFail
  | none, some _ => .ok 0
  | some _, none => .error .nullDeref
  | some k1, some k2 =>
    let len1 := k1.length
    let len2 := k2.length
    let minLength := if len1 < len2 then len1 else len2
    compute_diff_loop k1 k2 minLength (minLength * BITS_PER_BYTE + 1) 0

/-- `create_node` of main.c, lines 103-112. -/
def create_node (h : Heap) (key : Key) (value : suburb_data) (diff : Nat) : Heap × Nat :=
  (h ++ [{ key := key, diff := diff, value := value, left := none, right := none }], h.length)

/-- The descent loop of main.c (lines 126-135 in `insert_node`, 179-188 in
`search_node`, the same text): `while (parent->diff < child->diff) { ...;
if (child == NULL) break; }`.  Returns the final `parent` and `child`. -/
def descend (h : Heap) (key : Key) : Nat → Nat → Ptr → Run (Nat × Ptr)
  | 0, _, _ => .error .outOfFuel
  | fuel + 1, parent, child =>
    match deref h (some parent) with
    | .error f => .error f
    | .ok p =>
      match child with
      | none => .error .nullDeref
      | some ca =>
        match deref h (some ca) with
        | .error f => .error f
        | .ok c =>
          if p.diff < c.diff then
            match getBit key c.diff with
            | .error f => .error f
            | .ok bit =>
              let child2 := if bit = 0 then c.left else c.right
              match child2 with
              | none => .ok (ca, none)
              | some _ => descend h key fuel ca child2
          else .ok (parent, child)

/-- `insert_node` of main.c, lines 114-168: the new heap and the returned root. -/
def insert_node (h : Heap) (root : Ptr) (key : Key) (value : suburb_data) :
    Run (Heap × Ptr) :=
  match root with
  | none =>
    match compute_diff none (some key) with
    | .error f => .error f
    | .ok diff =>
      let (h1, r) := create_node h key value diff
      match deref h1 (some r) with
      | .error f => .error f
      | .ok node => .ok (h1.set r { node with left := some r }, some r)
  | some r =>
    match deref h (some r) with
    | .error f => .error f
    | .ok rootNode =>
      match descend h key h.length r rootNode.left with
      | .error f => .error f
      | .ok (parent, child) =>
        match child with
        | none => .error .nullDeref
        | some ca =>
        match deref h (some ca) with
        | .error f => .error f
        | .ok c =>
          match compute_diff (some c.key) (some key) with
          | .error f => .error f
          | .ok diff =>
            if diff = 0 then
              .ok (h.set ca { c with value := value }, root)
            else
              let (h1, nn) := create_node h key value diff
              match getBit key diff with
              | .error f => .error f
              | .ok bit =>
                match deref h1 (some nn) with
                | .error f => .error f
                | .ok newNode =>
                  let h2 :=
                    if bit = 0 then
                      h1.set nn { newNode with left := some nn, right := child }
                    else
                      h1.set nn { newNode with left := child, right := some nn }
                  match deref h2 (some parent) with
                  | .error f => .error f
                  | .ok p =>
                    match getBit key p.diff with
                    | .error f => .error f
                    | .ok bit2 =>
                      if bit2 = 0 then
                        .ok (h2.set parent { p with left := some nn }, root)
                      else
                        .ok (h2.set parent { p with right := some nn }, root)

/-- `search_node` of main.c, lines 170-196: the returned pointer. -/
def search_node (h : Heap) (root : Ptr) (key : Key) : Run Ptr :=
  match root with
  | none => .ok none
  | some r =>
    match deref h (some r) with
    | .error f => .error f
    | .ok rootNode =>
      match descend h key h.length r rootNode.left with
      | .error f => .error f
      | .ok (_, child) =>
        match deref h child with
        | .error f => .error f
        | .ok c => if c.key = key then .ok child else .ok none

/-- The driver's insertion loop (main.c lines 242-247) over a list of (name, record)
pairs: the heap and `root` it leaves. -/
def insert_all : Heap × Ptr → List (Key × suburb_data) → Run (Heap × Ptr)
  | s, [] => .ok s
  | s, (k, v) :: rest =>
    match insert_node s.1 s.2 k v with
    | .error f => .error f
    | .ok s1 => insert_all s1 rest

/-- The trie main.c builds from the empty one (`root = NULL`, line 228). -/
def build (kvs : List (Key × suburb_data)) : Run (Heap × Ptr) := insert_all ([], none) kvs

/-- The second pass of the driver (main.c lines 265-278): for each inserted name, in
order, whether `search_node` returned a node ("Match found") or `NULL` ("NOTFOUND"). -/
def self_check (kvs : List (Key × suburb_data)) : Run (List (Run Ptr)) :=
  match build kvs with
  | .error f => .error f
  | .ok s => .ok (kvs.map (fun kv => search_node s.1 s.2 kv.1))

end MainC

/-! `edit_distance.c`: the table-filling edit distance. -/

namespace EditDistance

open Dict4 (Run Fault readByte)

/-- A `char *` argument: `none` is `NULL`, `some s` the bytes before the terminator. -/
abbrev CString := Option (List Nat)

/-- `min` of edit_distance.c, lines 5-11. -/
def min (a b c : Int) : Int :=
  if a < b then (if a < c then a else c) else (if b < c then b else c)

/-- `str[i]`: a fault on `NULL`, else the byte as `Dict4.readByte` reads it. -/
def charAt (str : CString) (i : Nat) : Run Nat :=
  match str with
  | none => .error .nullDeref
  | some s => readByte s i

/-- The array `dp`: `dp i j` is the content of `dp[i][j]`. -/
abbrev Table := Nat → Nat → Int

/-- The table after `dp[i][j] = v`. -/
def Table.set (dp : Table) (i j : Nat) (v : Int) : Table :=
  fun a b => if a = i ∧ b = j then v else dp a b

/-- The body of the inner loop, edit_distance.c lines 23-40: the table after the
cell `dp[i][j]` is written. -/
def cell (str1 str2 : CString) (i j : Nat) (dp : Table) : Run Table :=
  if i = 0 then .ok (dp.set i j j)
  else if j = 0 then .ok (dp.set i j i)
  else
    match charAt str1 (i - 1) with
    | .error f => .error f
    | .ok c1 =>
      match charAt str2 (j - 1) with
      | .error f => .error f
      | .ok c2 =>
        if c1 = c2 then .ok (dp.set i j (dp (i - 1) (j - 1)))
        else .ok (dp.set i j (1 + min (dp (i - 1) j) (dp i (j - 1)) (dp (i - 1) (j - 1))))

/-- The inner loop `for (int j = 0; j <= m; j++)`, line 22, from index `j` on. -/
def inner_loop (str1 str2 : CString) (m i : Nat) : Nat → Nat → Table → Run Table
  | 0, _, _ => .error .outOfFuel
  | fuel + 1, j, dp =>
    if j ≤ m then
      match cell str1 str2 i j dp with
      | .error f => .error f
      | .ok dp1 => inner_loop str1 str2 m i fuel (j + 1) dp1
    else .ok dp

/-- The outer loop `for (int i = 0; i <= n; i++)`, line 21, from index `i` on. -/
def outer_loop (str1 str2 : CString) (n m : Nat) : Nat → Nat → Table → Run Table
  | 0, _, _ => .error .outOfFuel
  | fuel + 1, i, dp =>
    if i ≤ n then
      match inner_loop str1 str2 m i (m + 2) 0 dp with
      | .error f => .error f
      | .ok dp1 => outer_loop str1 str2 n m fuel (i + 1) dp1
    else .ok dp

/-- `editDistance` of edit_distance.c, lines 14-46.  `dp0` is what the array `dp`
holds before the loops write it; the array is not initialised. -/
def editDistance (str1 str2 : CString) (n m : Int) (dp0 : Table) : Run Int :=
  if m ≥ 0 ∧ n ≥ 0 ∧ (str1.isSome ∨ m = 0) ∧ (str2.isSome ∨ n = 0) then
    match outer_loop str1 str2 n.toNat m.toNat (n.toNat + 2) 0 dp0 with
    | .error f => .error f
    | .ok dp => .ok (dp n.toNat m.toNat)
  else .error .assertFail

/-- The spec's reading of an edit script (one way to turn `xs` into `ys` by
single-character operations, walking both strings from the left) and its number of
operations: a character is kept at no cost, or substituted, deleted or inserted at
the cost of one operation each. -/
inductive SpecEdits : List Nat → List Nat → Nat → Prop where
  | done : SpecEdits [] [] 0
  | keep (a : Nat) {xs ys : List Nat} {k : Nat} :
      SpecEdits xs ys k → SpecEdits (a :: xs) (a :: ys) k
  | substitute (a b : Nat) {xs ys : List Nat} {k : Nat} :
      SpecEdits xs ys k → SpecEdits (a :: xs) (b :: ys) (k + 1)
  | delete (a : Nat) {xs ys : List Nat} {k : Nat} :
      SpecEdits xs ys k → SpecEdits (a :: xs) ys (k + 1)
  | insert (b : Nat) {xs ys : List Nat} {k : Nat} :
      SpecEdits xs ys k → SpecEdits xs (b :: ys) (k + 1)

/-- The spec's Levenshtein distance: `d` is the minimum number of single-character
insertions, deletions and substitutions that turn `xs` into `ys`. -/
structure IsLevenshteinDistance (xs ys : List Nat) (d : Nat) : Prop where
  reached : SpecEdits xs ys d
  least : ∀ k, SpecEdits xs ys k → d ≤ k

/-- The Levenshtein distance (Mathlib's, with unit costs) between the first `a`
characters of `s1` and the first `b` characters of `s2`: what the cell `dp[a][b]` is
meant to hold. -/
def prefixDistance (s1 s2 : List Nat) (a b : Nat) : Nat :=
  levenshtein Levenshtein.defaultCost (s1.take a) (s2.take b)

/-- The cells written before the loops reach `dp[i][j]` (the rows above `i`, and row
`i` up to column `j`) hold the distances of the prefixes. -/
def Filled (s1 s2 : List Nat) (m : Nat) (dp : Table) (i j : Nat) : Prop :=
  ∀ a b, b ≤ m → (a < i ∨ (a = i ∧ b < j)) → dp a b = (prefixDistance s1 s2 a b : Int)

/-- When one of the two lengths is 0 the table is a single row or column: the cells
written before the loops reach `dp[i][j]` hold their column index in row 0 and their
row index elsewhere. -/
def BorderFilled (m : Nat) (dp : Table) (i j : Nat) : Prop :=
  ∀ a b, b ≤ m → (a < i ∨ (a = i ∧ b < j)) → dp a b = (if a = 0 then (b : Int) else (a : Int))

/-- The bytes of "kitten". -/
def str_kitten : List Nat := [107, 105, 116, 116, 101, 110]

/-- The bytes of "sitting". -/
def str_sitting : List Nat := [115, 105, 116, 116, 105, 110, 103]

end EditDistance


namespace Dict4

/-! ## Bits of a key -/

theorem mask_then_shift (x k : Nat) : (x &&& (1 <<< k)) >>> k = (x.testBit k).toNat := by
  rw [Nat.one_shiftLeft, Nat.and_two_pow, Nat.shiftRight_eq_div_pow,
    Nat.mul_div_cancel _ (Nat.two_pow_pos k)]

theorem testBit_unsigned_char (x k : Nat) (hk : k < 8) :
    (x % 256).testBit k = x.testBit k := by
  have h : (256 : Nat) = 2 ^ 8 := by norm_num
  rw [h, Nat.testBit_mod_two_pow]
  simp [hk]

theorem offset_eq (i : Nat) :
    (BITS_PER_BYTE - i % BITS_PER_BYTE - 1) % BITS_PER_BYTE = 7 - i % 8 := by
  simp only [BITS_PER_BYTE]
  omega

/-- What `getBit` returns when the byte it reads is inside the key's storage. -/
theorem getBit_eq (s : Key) (i : Nat) (t : comparison_tracker) (h : i / 8 ≤ s.length) :
    getBit s i t
      = .ok ((specBit s i).toNat, { t with bit_comparisons := t.bit_comparisons + 1 }) := by
  have hoff := offset_eq i
  have hb : readByte s (i / BITS_PER_BYTE) = .ok (s.getD (i / 8) 0 % 256) := by
    simp only [readByte, BITS_PER_BYTE]
    by_cases hlt : i / 8 < s.length
    · simp [hlt]
    · have he : i / 8 = s.length := by omega
      simp [he]
  simp only [getBit, hb, hoff, mask_then_shift, specBit]
  rw [testBit_unsigned_char _ _ (by omega)]

/-- C6 (bit extraction): when byte `bitIndex / 8` is inside the storage of `s` (its
bytes and the terminator), `getBit(s, bitIndex)` returns bit `7 - bitIndex mod 8` of
byte `s[bitIndex / 8]`, which is the spec's most-significant-bit-first bit, it is 0
or 1, and the tracker gets one more bit comparison; `getBit("A", 0) = 0`,
`getBit("A", 1) = 1` and `getBit("A", 7) = 1`. -/
theorem C6_getBit_msb_first (s : Key) (bitIndex : Nat) (t : comparison_tracker)
    (h : bitIndex / 8 ≤ s.length) :
    getBit s bitIndex t
        = .ok (((s.getD (bitIndex / 8) 0).testBit (7 - bitIndex % 8)).toNat,
               { t with bit_comparisons := t.bit_comparisons + 1 })
    ∧ (getBit s bitIndex t).map Prod.fst = .ok (specBit s bitIndex).toNat
    ∧ (specBit s bitIndex).toNat ≤ 1
    ∧ (getBit key_A 0 t).map Prod.fst = .ok 0
    ∧ (getBit key_A 1 t).map Prod.fst = .ok 1
    ∧ (getBit key_A 7 t).map Prod.fst = .ok 1 := by
  refine ⟨getBit_eq s bitIndex t h, ?_, ?_, ?_, ?_, ?_⟩
  · rw [getBit_eq s bitIndex t h]; rfl
  · cases specBit s bitIndex <;> decide
  · rw [getBit_eq key_A 0 t (by decide)]; rfl
  · rw [getBit_eq key_A 1 t (by decide)]; rfl
  · rw [getBit_eq key_A 7 t (by decide)]; rfl

/-- C6 at a concrete input: bit 9 of "Ab" is bit 6 of 'b' = 0x62, which is 1. -/
theorem C6_getBit_msb_first_witness :
    9 / 8 ≤ key_Ab.length
    ∧ getBit key_Ab 9 comparison_tracker.zero
        = .ok (1, { bit_comparisons := 1, node_accesses := 0, string_comparisons := 0 }) :=
  ⟨by decide, (C6_getBit_msb_first key_Ab 9 comparison_tracker.zero (by decide)).1⟩

/-! ## The first differing bit -/

/-- The loop of `compute_diff` started at `i` with enough fuel returns an index `d`
between `i` and `8 * m`: the keys agree on the bits from `i` up to `d`, and differ
at `d` when `d` is below `8 * m`. -/
theorem compute_diff_loop_post (k1 k2 : Key) (m : Nat) (h1 : m ≤ k1.length)
    (h2 : m ≤ k2.length) :
    ∀ (fuel i : Nat) (t : comparison_tracker), i ≤ 8 * m → 8 * m - i < fuel →
      ∃ d t2, compute_diff_loop k1 k2 m fuel i t = .ok (d, t2)
        ∧ i ≤ d ∧ d ≤ 8 * m
        ∧ (∀ j, i ≤ j → j < d → specBit k1 j = specBit k2 j)
        ∧ (d < 8 * m → specBit k1 d ≠ specBit k2 d) := by
  intro fuel
  induction fuel with
  | zero => intro i t _ hf; omega
  | succ n ih =>
    intro i t hi hf
    simp only [compute_diff_loop, BITS_PER_BYTE]
    by_cases hlt : i < m * 8
    · have hb1 : i / 8 ≤ k1.length := by omega
      have hb2 : i / 8 ≤ k2.length := by omega
      rw [if_pos hlt, getBit_eq k1 i t hb1]
      dsimp only
      rw [getBit_eq k2 i _ hb2]
      dsimp only
      by_cases hne : (specBit k1 i).toNat ≠ (specBit k2 i).toNat
      · rw [if_pos hne]
        refine ⟨i, _, rfl, le_refl _, by omega, ?_, ?_⟩
        · intro j hj1 hj2; omega
        · intro _ heq; exact hne (by rw [heq])
      · rw [if_neg hne]
        have heq : specBit k1 i = specBit k2 i := by
          revert hne
          cases specBit k1 i <;> cases specBit k2 i <;> simp
        obtain ⟨d, t2, hr, hid, hdm, hagree, hdiff⟩ := ih (i + 1) _ (by omega) (by omega)
        refine ⟨d, t2, hr, by omega, hdm, ?_, hdiff⟩
        intro j hj1 hj2
        by_cases hji : j = i
        · subst hji; exact heq
        · exact hagree j (by omega) hj2
    · rw [if_neg hlt]
      refine ⟨m * 8, t, rfl, by omega, by omega, ?_, ?_⟩
      · intro j hj1 hj2; omega
      · intro h; omega

/-- The index `compute_diff` returns for two keys. -/
theorem compute_diff_some (a b : Key) (t : comparison_tracker) :
    ∃ d t2, compute_diff (some a) (some b) t = .ok (d, t2)
      ∧ d ≤ 8 * min a.length b.length
      ∧ (∀ j, j < d → specBit a j = specBit b j)
      ∧ (d < 8 * min a.length b.length → specBit a d ≠ specBit b d) := by
  have hm : (if a.length < b.length then a.length else b.length) = min a.length b.length := by
    split <;> omega
  simp only [compute_diff, hm, BITS_PER_BYTE]
  obtain ⟨d, t2, hr, _, hdm, hagree, hdiff⟩ :=
    compute_diff_loop_post a b (min a.length b.length) (by omega) (by omega)
      (min a.length b.length * 8 + 1) 0 t (by omega) (by omega)
  exact ⟨d, t2, hr, hdm, fun j hj => hagree j (by omega) hj, hdiff⟩

/-- Two bytes with the same eight bits are the same byte. -/
theorem byte_eq_of_bits (x y : Nat) (hx : x < 256) (hy : y < 256)
    (h : ∀ k, k < 8 → x.testBit k = y.testBit k) : x = y := by
  apply Nat.eq_of_testBit_eq
  intro i
  by_cases hi : i < 8
  · exact h i hi
  · have hp : 256 ≤ 2 ^ i := by
      have : 2 ^ 8 ≤ 2 ^ i := Nat.pow_le_pow_right (by norm_num) (by omega)
      norm_num at this
      exact this
    rw [Nat.testBit_lt_two_pow (by omega), Nat.testBit_lt_two_pow (by omega)]

/-- Keys that agree on their first `8 * m` bits agree on their first `m` bytes. -/
theorem bytes_eq_of_bits_eq (a b : Key) (ha : WellFormedKey a) (hb : WellFormedKey b)
    (m : Nat) (hma : m ≤ a.length) (hmb : m ≤ b.length)
    (h : ∀ j, j < 8 * m → specBit a j = specBit b j) : a.take m = b.take m := by
  apply List.ext_getElem
  · simp [hma, hmb]
  · intro q hq1 hq2
    have hq : q < m := by
      simp only [List.length_take] at hq1
      omega
    rw [List.getElem_take, List.getElem_take]
    have hqa : q < a.length := by omega
    have hqb : q < b.length := by omega
    apply byte_eq_of_bits
    · exact (ha _ (List.getElem_mem hqa)).2
    · exact (hb _ (List.getElem_mem hqb)).2
    · intro k hk
      have hj := h (8 * q + (7 - k)) (by omega)
      simp only [specBit] at hj
      have e1 : (8 * q + (7 - k)) / 8 = q := by omega
      have e2 : 7 - (8 * q + (7 - k)) % 8 = k := by omega
      rw [e1, e2, List.getD_eq_getElem _ _ hqa, List.getD_eq_getElem _ _ hqb] at hj
      exact hj

/-- A prefix of a key has the bits of the key, as far as it goes. -/
theorem specBit_of_initial_segment (a b : Key) (hp : a <+: b) (j : Nat) (hj : j < 8 * a.length) :
    specBit a j = specBit b j := by
  have hq : j / 8 < a.length := by omega
  have hqb : j / 8 < b.length := lt_of_lt_of_le hq hp.length_le
  simp only [specBit]
  rw [List.getD_eq_getElem _ _ hq, List.getD_eq_getElem _ _ hqb, hp.getElem hq]

/-- The index returned for two keys is `8 * min` exactly when one is a prefix of the
other. -/
theorem diff_full_iff_initial_segment (a b : Key) (ha : WellFormedKey a) (hb : WellFormedKey b)
    (d : Nat) (hagree : ∀ j, j < d → specBit a j = specBit b j)
    (hdiff : d < 8 * min a.length b.length → specBit a d ≠ specBit b d)
    (hdm : d ≤ 8 * min a.length b.length) :
    d = 8 * min a.length b.length ↔ (a <+: b ∨ b <+: a) := by
  constructor
  · intro hd
    have htake := bytes_eq_of_bits_eq a b ha hb (min a.length b.length) (by omega) (by omega)
      (fun j hj => hagree j (by omega))
    rcases Nat.le_total a.length b.length with hle | hle
    · left
      rw [Nat.min_eq_left hle, List.take_length] at htake
      exact List.prefix_iff_eq_take.mpr htake
    · right
      rw [Nat.min_eq_right hle, List.take_length] at htake
      exact List.prefix_iff_eq_take.mpr htake.symm
  · intro hp
    by_contra hne
    have hlt : d < 8 * min a.length b.length := by omega
    rcases hp with hp | hp
    · have hle := hp.length_le
      exact hdiff hlt (specBit_of_initial_segment a b hp d (by omega))
    · have hle := hp.length_le
      exact hdiff hlt (specBit_of_initial_segment b a hp d (by omega)).symm

/-- C7 (ComputeDiff postcondition): for keys `a`, `b` (C strings) and
`m = min(len a, len b)`, `compute_diff(a, b)` returns an index `d` at most `8 * m`;
if the keys differ at some bit below `8 * m`, `d` is the least such bit index;
if they differ at none, `d = 8 * m`; `d = 8 * m` exactly when one key is a prefix of
the other; `d = 8 * len a` when `a = b`; and `compute_diff(NULL, b)` returns 0 and
leaves the tracker alone. -/
theorem C7_compute_diff_post (a b : Key) (t : comparison_tracker)
    (ha : WellFormedKey a) (hb : WellFormedKey b) :
    ∃ d t2, compute_diff (some a) (some b) t = .ok (d, t2)
      ∧ d ≤ 8 * min a.length b.length
      ∧ ((∃ i, i < 8 * min a.length b.length ∧ specBit a i ≠ specBit b i) →
            d < 8 * min a.length b.length ∧ specBit a d ≠ specBit b d
            ∧ ∀ i, i < d → specBit a i = specBit b i)
      ∧ ((¬ ∃ i, i < 8 * min a.length b.length ∧ specBit a i ≠ specBit b i) →
            d = 8 * min a.length b.length)
      ∧ (d = 8 * min a.length b.length ↔ (a <+: b ∨ b <+: a))
      ∧ (a = b → d = 8 * a.length)
      ∧ compute_diff none (some b) t = .ok (0, t) := by
  obtain ⟨d, t2, hr, hdm, hagree, hdiff⟩ := compute_diff_some a b t
  have hiff := diff_full_iff_initial_segment a b ha hb d hagree hdiff hdm
  refine ⟨d, t2, hr, hdm, ?_, ?_, hiff, ?_, rfl⟩
  · rintro ⟨i, hi, hne⟩
    have hdi : d ≤ i := by
      by_contra hcon
      exact hne (hagree i (by omega))
    have hlt : d < 8 * min a.length b.length := by omega
    exact ⟨hlt, hdiff hlt, hagree⟩
  · intro hnone
    by_contra hne
    have hlt : d < 8 * min a.length b.length := by omega
    exact hnone ⟨d, hlt, hdiff hlt⟩
  · intro hab
    have hd := hiff.mpr (Or.inl (hab ▸ List.prefix_refl a))
    rw [hd, ← hab, Nat.min_self]

/-- C7 at a concrete input: "Ab" against "abc" (first differing bit: index 2). -/
theorem C7_compute_diff_post_witness :
    WellFormedKey key_Ab ∧ WellFormedKey key_abc
    ∧ ∃ d t2, compute_diff (some key_Ab) (some key_abc) comparison_tracker.zero = .ok (d, t2)
      ∧ d ≤ 8 * min key_Ab.length key_abc.length
      ∧ ((∃ i, i < 8 * min key_Ab.length key_abc.length
              ∧ specBit key_Ab i ≠ specBit key_abc i) →
            d < 8 * min key_Ab.length key_abc.length ∧ specBit key_Ab d ≠ specBit key_abc d
            ∧ ∀ i, i < d → specBit key_Ab i = specBit key_abc i)
      ∧ ((¬ ∃ i, i < 8 * min key_Ab.length key_abc.length
              ∧ specBit key_Ab i ≠ specBit key_abc i) →
            d = 8 * min key_Ab.length key_abc.length)
      ∧ (d = 8 * min key_Ab.length key_abc.length ↔ (key_Ab <+: key_abc ∨ key_abc <+: key_Ab))
      ∧ (key_Ab = key_abc → d = 8 * key_Ab.length)
      ∧ compute_diff none (some key_abc) comparison_tracker.zero
          = .ok (0, comparison_tracker.zero) :=
  ⟨by decide, by decide,
   C7_compute_diff_post key_Ab key_abc comparison_tracker.zero (by decide) (by decide)⟩

/-! ## The tracker is carried along, never read -/

theorem Run.map_map {α β γ : Type} (g : β → γ) (f : α → β) (r : Run α) :
    (r.map f).map g = r.map (g ∘ f) := by
  cases r <;> rfl

theorem getBit_add (s : Key) (i : Nat) (t d : comparison_tracker) :
    getBit s i (t.add d) = (getBit s i t).map (fun x => (x.1, x.2.add d)) := by
  simp only [getBit]
  cases readByte s (i / BITS_PER_BYTE) with
  | error f => rfl
  | ok b =>
    simp only [Run.map, comparison_tracker.add, Run.ok.injEq, Prod.mk.injEq,
      comparison_tracker.mk.injEq, true_and, and_true]
    omega

theorem compute_diff_loop_add (key1 key2 : Key) (m : Nat) (d : comparison_tracker) :
    ∀ (fuel i : Nat) (t : comparison_tracker),
      compute_diff_loop key1 key2 m fuel i (t.add d)
        = (compute_diff_loop key1 key2 m fuel i t).map (fun x => (x.1, x.2.add d)) := by
  intro fuel
  induction fuel with
  | zero => intro i t; rfl
  | succ n ih =>
    intro i t
    simp only [compute_diff_loop]
    split
    · rw [getBit_add]
      cases getBit key1 i t with
      | error f => rfl
      | ok r1 =>
        obtain ⟨bit1, t1⟩ := r1
        simp only [Run.map]
        rw [getBit_add]
        cases getBit key2 i t1 with
        | error f => rfl
        | ok r2 =>
          obtain ⟨bit2, t2⟩ := r2
          simp only [Run.map]
          split
          · rfl
          · exact ih (i + 1) t2
    · rfl

theorem compute_diff_add (key1 key2 : Option Key) (t d : comparison_tracker) :
    compute_diff key1 key2 (t.add d)
      = (compute_diff key1 key2 t).map (fun x => (x.1, x.2.add d)) := by
  cases key1 <;> cases key2 <;> simp only [compute_diff, Run.map]
  exact compute_diff_loop_add _ _ _ _ _ _ _

theorem node_access_add (t d : comparison_tracker) :
    ({ t.add d with node_accesses := (t.add d).node_accesses + 1 } : comparison_tracker)
      = ({ t with node_accesses := t.node_accesses + 1 } : comparison_tracker).add d := by
  simp only [comparison_tracker.add, comparison_tracker.mk.injEq, true_and, and_true]
  omega

theorem string_comparison_add (t d : comparison_tracker) :
    ({ t.add d with string_comparisons := (t.add d).string_comparisons + 1 } :
        comparison_tracker)
      = ({ t with string_comparisons := t.string_comparisons + 1 } : comparison_tracker).add d := by
  simp only [comparison_tracker.add, comparison_tracker.mk.injEq, true_and, and_true]
  omega

theorem descend_add (h : Heap) (key : Key) (d : comparison_tracker) :
    ∀ (fuel parent : Nat) (child : Ptr) (t : comparison_tracker),
      descend h key fuel parent child (t.add d)
        = (descend h key fuel parent child t).map (fun x => (x.1, x.2.1, x.2.2.add d)) := by
  intro fuel
  induction fuel with
  | zero => intro parent child t; rfl
  | succ n ih =>
    intro parent child t
    simp only [descend]
    cases deref h (some parent) with
    | error f => rfl
    | ok p =>
      cases child with
      | none => rfl
      | some ca =>
        dsimp only
        cases deref h (some ca) with
        | error f => rfl
        | ok c =>
          dsimp only
          split
          · rw [node_access_add, getBit_add]
            cases getBit key c.diff { t with node_accesses := t.node_accesses + 1 } with
            | error f => rfl
            | ok r =>
              obtain ⟨bit, t2⟩ := r
              simp only [Run.map]
              split
              · exact ih ca c.left t2
              · exact ih ca c.right t2
          · rfl

theorem search_node_add (h : Heap) (root : Ptr) (key : Key) (t d : comparison_tracker) :
    search_node h root key (t.add d)
      = (search_node h root key t).map (fun x => (x.1, x.2.add d)) := by
  cases root with
  | none => rfl
  | some r =>
    simp only [search_node]
    cases deref h (some r) with
    | error f => rfl
    | ok rootNode =>
      simp only []
      rw [node_access_add, descend_add]
      cases descend h key h.length r rootNode.left
          { t with node_accesses := t.node_accesses + 1 } with
      | error f => rfl
      | ok x =>
        obtain ⟨parent, child, t1⟩ := x
        simp only [Run.map]
        rw [string_comparison_add]
        cases deref h child with
        | error f => rfl
        | ok c =>
          simp only []
          split <;> rfl

theorem insert_node_add (h : Heap) (root : Ptr) (key : Key) (value : suburb_data)
    (t d : comparison_tracker) :
    insert_node h root key value (t.add d)
      = (insert_node h root key value t).map (fun x => (x.1, x.2.1, x.2.2.add d)) := by
  cases root with
  | none =>
    simp only [insert_node, compute_diff, create_node]
    cases deref _ _ with
    | error f => rfl
    | ok node => rfl
  | some r =>
    simp only [insert_node]
    cases deref h (some r) with
    | error f => rfl
    | ok rootNode =>
      simp only []
      rw [descend_add]
      cases descend h key h.length r rootNode.left t with
      | error f => rfl
      | ok x =>
        obtain ⟨parent, child, t1⟩ := x
        simp only [Run.map]
        cases child with
        | none => rfl
        | some ca =>
          simp only []
          cases deref h (some ca) with
          | error f => rfl
          | ok c =>
            simp only []
            rw [compute_diff_add]
            cases compute_diff (some c.key) (some key) t1 with
            | error f => rfl
            | ok y =>
              obtain ⟨diff, t2⟩ := y
              simp only [Run.map]
              rw [string_comparison_add]
              split
              · rfl
              · simp only [create_node]
                rw [getBit_add]
                cases getBit key diff
                    { t2 with string_comparisons := t2.string_comparisons + 1 } with
                | error f => rfl
                | ok z =>
                  obtain ⟨bit, t4⟩ := z
                  simp only [Run.map]
                  cases deref _ _ with
                  | error f => rfl
                  | ok newNode =>
                    simp only []
                    cases deref _ _ with
                    | error f => rfl
                    | ok p =>
                      simp only []
                      rw [getBit_add]
                      cases getBit key p.diff t4 with
                      | error f => rfl
                      | ok w =>
                        obtain ⟨bit2, t5⟩ := w
                        simp only [Run.map]
                        split <;> rfl

theorem tracker_add_sub (t1 t2 : comparison_tracker) : t1.add (t2.sub t1) = t2 := by
  cases t1; cases t2
  simp only [comparison_tracker.add, comparison_tracker.sub, comparison_tracker.mk.injEq]
  omega

theorem tracker_zero_add (t : comparison_tracker) : comparison_tracker.zero.add t = t := by
  cases t
  simp only [comparison_tracker.add, comparison_tracker.zero, comparison_tracker.mk.injEq]
  omega

/-- The bit `getBit` returns does not depend on the tracker it is given. -/
theorem getBit_fst (s : Key) (i : Nat) (t : comparison_tracker) :
    (getBit s i t).map Prod.fst = (getBit s i comparison_tracker.zero).map Prod.fst := by
  conv_lhs => rw [← tracker_zero_add t, getBit_add, Run.map_map]
  rfl

/-- The index `compute_diff` returns does not depend on the tracker it is given. -/
theorem compute_diff_fst (key1 key2 : Option Key) (t : comparison_tracker) :
    (compute_diff key1 key2 t).map Prod.fst
      = (compute_diff key1 key2 comparison_tracker.zero).map Prod.fst := by
  conv_lhs => rw [← tracker_zero_add t, compute_diff_add, Run.map_map]
  rfl

/-! ## The first insertion -/

/-- C9 (insert into the empty trie, dict4.c): `insert_node(NULL, k, R)` allocates one
cell, with key `k`, value `R`, diff 0, `left` pointing to the cell itself (and `right`
`NULL`), returns its address as the root and leaves the tracker alone; on that trie
`search_node` for `k` returns the root, and for any other key `k2` it returns `NULL`. -/
theorem C9_insert_into_empty_trie (h : Heap) (k k2 : Key) (R : suburb_data)
    (t t2 : comparison_tracker) (hne : k2 ≠ k) :
    insert_node h none k R t
        = .ok (h ++ [{ key := k, diff := 0, value := R, left := some h.length, right := none }],
               some h.length, t)
    ∧ (search_node
          (h ++ [{ key := k, diff := 0, value := R, left := some h.length, right := none }])
          (some h.length) k t2).map Prod.fst = .ok (some h.length)
    ∧ (search_node
          (h ++ [{ key := k, diff := 0, value := R, left := some h.length, right := none }])
          (some h.length) k2 t2).map Prod.fst = .ok none := by
  have hd : deref
      (h ++ [{ key := k, diff := 0, value := R, left := some h.length, right := none }])
      (some h.length)
      = .ok { key := k, diff := 0, value := R, left := some h.length, right := none } := by
    simp [deref]
  refine ⟨?_, ?_, ?_⟩
  · simp [insert_node, compute_diff, create_node, deref]
  · simp [search_node, hd, descend, Run.map]
  · simp [search_node, hd, descend, Run.map, Ne.symm hne]

/-- C9 at a concrete input: the key "a" with record 7 into the empty trie, then a
search for "a" and one for "b". -/
theorem C9_insert_into_empty_trie_witness :
    key_b ≠ key_a
    ∧ insert_node [] none key_a 7 comparison_tracker.zero
        = .ok ([{ key := key_a, diff := 0, value := 7, left := some 0, right := none }],
               some 0, comparison_tracker.zero)
    ∧ (search_node [{ key := key_a, diff := 0, value := 7, left := some 0, right := none }]
          (some 0) key_a comparison_tracker.zero).map Prod.fst = .ok (some 0)
    ∧ (search_node [{ key := key_a, diff := 0, value := 7, left := some 0, right := none }]
          (some 0) key_b comparison_tracker.zero).map Prod.fst = .ok none :=
  ⟨by decide,
   C9_insert_into_empty_trie [] key_a key_b 7 comparison_tracker.zero comparison_tracker.zero
     (by decide)⟩

/-! ## The shape of a trie built by `insert_node` -/

theorem deref_some_iff (h : Heap) (a : Nat) (node : patricia_node) :
    deref h (some a) = .ok node ↔ h[a]? = some node := by
  simp only [deref, List.get?_eq_getElem?]
  cases h[a]? with
  | none => simp
  | some n => simp

theorem deref_ok_mem (h : Heap) (p : Ptr) (node : patricia_node)
    (hd : deref h p = .ok node) : ∃ a, p = some a ∧ h[a]? = some node ∧ node ∈ h := by
  cases p with
  | none => simp [deref] at hd
  | some a =>
    have hg := (deref_some_iff h a node).mp hd
    exact ⟨a, rfl, hg, List.mem_iff_getElem?.mpr ⟨a, hg⟩⟩

/-- Appending a cell with a positive diff and allocated children keeps the shape. -/
theorem Shaped.append (h : Heap) (hs : Shaped h) (node : patricia_node)
    (hd : node.diff ≠ 0) (l r : Nat) (hl : node.left = some l) (hll : l ≤ h.length)
    (hr : node.right = some r) (hrl : r ≤ h.length) : Shaped (h ++ [node]) := by
  obtain ⟨hpos, hall⟩ := hs
  refine ⟨by simp, ?_⟩
  intro a n hget
  simp only [List.length_append, List.length_singleton]
  by_cases ha : a < h.length
  · rw [List.getElem?_append_left ha] at hget
    obtain ⟨h1, ⟨l0, hl0, hl1⟩, h3⟩ := hall a n hget
    refine ⟨h1, ⟨l0, hl0, by omega⟩, ?_⟩
    intro hpos0
    obtain ⟨r0, hr0, hr1⟩ := h3 hpos0
    exact ⟨r0, hr0, by omega⟩
  · have hlen : (h ++ [node]).length = h.length + 1 := by simp
    have hlt := (List.getElem?_eq_some_iff.mp hget).1
    have hae : a = h.length := by omega
    subst hae
    rw [List.getElem?_concat_length] at hget
    cases hget
    refine ⟨⟨fun h0 => absurd h0 hd, fun h0 => by omega⟩, ⟨l, hl, by omega⟩, ?_⟩
    intro _
    exact ⟨r, hr, by omega⟩

/-- Storing into a cell a node with the same diff and allocated children keeps the
shape. -/
theorem Shaped.set (h : Heap) (hs : Shaped h) (a : Nat) (old new : patricia_node)
    (hold : h[a]? = some old) (hd : new.diff = old.diff)
    (hl : ∃ l, new.left = some l ∧ l < h.length)
    (hr : 0 < a → ∃ r, new.right = some r ∧ r < h.length) : Shaped (h.set a new) := by
  obtain ⟨hpos, hall⟩ := hs
  refine ⟨by simpa using hpos, ?_⟩
  intro b n hget
  simp only [List.length_set]
  by_cases hba : a = b
  · subst hba
    have hlt := (List.getElem?_eq_some_iff.mp hold).1
    rw [List.getElem?_set_self hlt] at hget
    cases hget
    exact ⟨by rw [hd]; exact (hall a old hold).1, hl, hr⟩
  · rw [List.getElem?_set_ne hba] at hget
    exact hall b n hget

theorem deref_append_new (h : Heap) (node : patricia_node) :
    deref (h ++ [node]) (some h.length) = .ok node := by
  rw [deref_some_iff, List.getElem?_concat_length]

theorem set_append_new (h : Heap) (node new : patricia_node) :
    (h ++ [node]).set h.length new = h ++ [new] := by
  rw [List.set_append_right _ _ (le_refl _)]
  simp

/-- What a successful `insert_node` on a non-empty trie did: it descended to a
`parent` and a child cell `c` at address `ca`, computed `diff` against the child's
key, and then either stored the value into the child (`diff = 0`) or appended the
wired new cell and stored its address into one branch of `parent`. -/
theorem insert_node_some_inv (h : Heap) (r : Nat) (key : Key) (value : suburb_data)
    (t : comparison_tracker) (h2 : Heap) (root2 : Ptr) (t2 : comparison_tracker)
    (hres : insert_node h (some r) key value t = .ok (h2, root2, t2)) :
    root2 = some r ∧
    ∃ (rootNode : patricia_node) (parent ca : Nat) (c : patricia_node) (diff : Nat)
      (t1 t3 : comparison_tracker),
      h[r]? = some rootNode
      ∧ descend h key h.length r rootNode.left t = .ok (parent, some ca, t1)
      ∧ h[ca]? = some c
      ∧ compute_diff (some c.key) (some key) t1 = .ok (diff, t3)
      ∧ ((diff = 0 ∧ h2 = h.set ca { c with value := value })
         ∨ (diff ≠ 0 ∧
            ∃ (bit : Nat) (newNode p : patricia_node),
              (getBit key diff
                  { t3 with string_comparisons := t3.string_comparisons + 1 }).map Prod.fst
                = .ok bit
              ∧ newNode = (if bit = 0 then
                    { key := key, diff := diff, value := value, left := some ca,
                      right := some h.length }
                  else
                    { key := key, diff := diff, value := value, left := some h.length,
                      right := some ca })
              ∧ (h ++ [newNode])[parent]? = some p
              ∧ (h2 = (h ++ [newNode]).set parent { p with left := some h.length }
                 ∨ h2 = (h ++ [newNode]).set parent { p with right := some h.length }))) := by
  simp only [insert_node] at hres
  cases hroot : deref h (some r) with
  | error f => rw [hroot] at hres; cases hres
  | ok rootNode =>
    rw [hroot] at hres; dsimp only at hres
    cases hdesc : descend h key h.length r rootNode.left t with
    | error f => rw [hdesc] at hres; cases hres
    | ok x =>
      obtain ⟨parent, child, t1⟩ := x
      rw [hdesc] at hres; dsimp only at hres
      cases child with
      | none => cases hres
      | some ca =>
        dsimp only at hres
        cases hc : deref h (some ca) with
        | error f => rw [hc] at hres; cases hres
        | ok c =>
          rw [hc] at hres; dsimp only at hres
          cases hcd : compute_diff (some c.key) (some key) t1 with
          | error f => rw [hcd] at hres; cases hres
          | ok y =>
            obtain ⟨diff, t3⟩ := y
            rw [hcd] at hres; dsimp only at hres
            by_cases hz : diff = 0
            · rw [if_pos hz] at hres
              cases hres
              exact ⟨rfl, rootNode, parent, ca, c, diff, t1, t3,
                (deref_some_iff _ _ _).mp hroot, hdesc, (deref_some_iff _ _ _).mp hc, hcd,
                Or.inl ⟨hz, rfl⟩⟩
            · rw [if_neg hz] at hres
              simp only [create_node] at hres
              cases hg : getBit key diff
                  { t3 with string_comparisons := t3.string_comparisons + 1 } with
              | error f => rw [hg] at hres; cases hres
              | ok z =>
                obtain ⟨bit, t4⟩ := z
                rw [hg] at hres; dsimp only at hres
                rw [deref_append_new] at hres
                dsimp only at hres
                simp only [set_append_new] at hres
                have hheap :
                    (if bit = 0 then
                        h ++ [({ key := key, diff := diff, value := value, left := some ca,
                                 right := some h.length } : patricia_node)]
                      else
                        h ++ [({ key := key, diff := diff, value := value,
                                 left := some h.length, right := some ca } : patricia_node)])
                    = h ++ [if bit = 0 then
                        ({ key := key, diff := diff, value := value, left := some ca,
                           right := some h.length } : patricia_node)
                      else
                        ({ key := key, diff := diff, value := value,
                           left := some h.length, right := some ca } : patricia_node)] := by
                  split <;> rfl
                rw [hheap] at hres
                generalize hnew :
                    (if bit = 0 then
                        ({ key := key, diff := diff, value := value, left := some ca,
                           right := some h.length } : patricia_node)
                      else
                        ({ key := key, diff := diff, value := value,
                           left := some h.length, right := some ca } : patricia_node))
                    = newNode at hres
                cases hp : deref (h ++ [newNode]) (some parent) with
                | error f => rw [hp] at hres; cases hres
                | ok p =>
                  rw [hp] at hres; dsimp only at hres
                  cases hg2 : getBit key p.diff t4 with
                  | error f => rw [hg2] at hres; cases hres
                  | ok w =>
                    obtain ⟨bit2, t5⟩ := w
                    rw [hg2] at hres; dsimp only at hres
                    have hbit : (getBit key diff
                        { t3 with string_comparisons := t3.string_comparisons + 1 }).map
                          Prod.fst = .ok bit := by
                      rw [hg]; rfl
                    by_cases hb2 : bit2 = 0
                    · rw [if_pos hb2] at hres
                      cases hres
                      exact ⟨rfl, rootNode, parent, ca, c, diff, t1, t3,
                        (deref_some_iff _ _ _).mp hroot, hdesc, (deref_some_iff _ _ _).mp hc,
                        hcd, Or.inr ⟨hz, bit, newNode, p, hbit, hnew.symm,
                          (deref_some_iff _ _ _).mp hp, Or.inl rfl⟩⟩
                    · rw [if_neg hb2] at hres
                      cases hres
                      exact ⟨rfl, rootNode, parent, ca, c, diff, t1, t3,
                        (deref_some_iff _ _ _).mp hroot, hdesc, (deref_some_iff _ _ _).mp hc,
                        hcd, Or.inr ⟨hz, bit, newNode, p, hbit, hnew.symm,
                          (deref_some_iff _ _ _).mp hp, Or.inr rfl⟩⟩

theorem insert_node_null (h : Heap) (key : Key) (value : suburb_data)
    (t : comparison_tracker) :
    insert_node h none key value t
      = .ok (h ++ [{ key := key, diff := 0, value := value, left := some h.length,
                     right := none }], some h.length, t) := by
  simp [insert_node, compute_diff, create_node, deref]

theorem newNode_key (bit : Nat) (key : Key) (diff : Nat) (value : suburb_data)
    (ca n : Nat) :
    (if bit = 0 then
        ({ key := key, diff := diff, value := value, left := some ca,
           right := some n } : patricia_node)
      else
        ({ key := key, diff := diff, value := value, left := some n,
           right := some ca } : patricia_node)).key = key := by
  split <;> rfl

/-- The cells after `insert_node` carry the inserted key or a key that was there. -/
theorem insert_node_keys (h : Heap) (root : Ptr) (key : Key) (value : suburb_data)
    (t : comparison_tracker) (h2 : Heap) (root2 : Ptr) (t2 : comparison_tracker)
    (hres : insert_node h root key value t = .ok (h2, root2, t2)) :
    ∀ node ∈ h2, node.key = key ∨ ∃ old ∈ h, old.key = node.key := by
  intro node hmem
  cases root with
  | none =>
    rw [insert_node_null] at hres
    cases hres
    rcases List.mem_append.mp hmem with hm | hm
    · exact Or.inr ⟨node, hm, rfl⟩
    · rw [List.mem_singleton] at hm
      subst hm
      exact Or.inl rfl
  | some r =>
    obtain ⟨_, rootNode, parent, ca, c, diff, t1, t3, _, _, hc, _, hcase⟩ :=
      insert_node_some_inv h r key value t h2 root2 t2 hres
    rcases hcase with ⟨_, hh⟩ | ⟨_, bit, newNode, p, _, hnew, hp, hh⟩
    · subst hh
      rcases List.mem_or_eq_of_mem_set hmem with hm | hm
      · exact Or.inr ⟨node, hm, rfl⟩
      · subst hm
        exact Or.inr ⟨c, List.mem_iff_getElem?.mpr ⟨ca, hc⟩, rfl⟩
    · have hnk : newNode.key = key := by rw [hnew]; exact newNode_key _ _ _ _ _ _
      have hin : ∀ x ∈ h ++ [newNode], x.key = key ∨ ∃ old ∈ h, old.key = x.key := by
        intro x hx
        rcases List.mem_append.mp hx with hm | hm
        · exact Or.inr ⟨x, hm, rfl⟩
        · rw [List.mem_singleton] at hm
          subst hm
          exact Or.inl hnk
      have hpm : p ∈ h ++ [newNode] := List.mem_iff_getElem?.mpr ⟨parent, hp⟩
      rcases hh with hh | hh <;> subst hh
      · rcases List.mem_or_eq_of_mem_set hmem with hm | hm
        · exact hin node hm
        · subst hm
          exact hin p hpm
      · rcases List.mem_or_eq_of_mem_set hmem with hm | hm
        · exact hin node hm
        · subst hm
          exact hin p hpm

/-- `insert_node` keeps the shape of the trie. -/
theorem insert_node_inv (h : Heap) (root : Ptr) (key : Key) (value : suburb_data)
    (t : comparison_tracker) (h2 : Heap) (root2 : Ptr) (t2 : comparison_tracker)
    (hres : insert_node h root key value t = .ok (h2, root2, t2))
    (hinv : TrieInv h root) : TrieInv h2 root2 := by
  rcases hinv with ⟨hnil, hroot⟩ | ⟨hroot, hs⟩
  · subst hnil; subst hroot
    rw [insert_node_null] at hres
    cases hres
    refine Or.inr ⟨rfl, by simp, ?_⟩
    intro a node hget
    have hlt := (List.getElem?_eq_some_iff.mp hget).1
    have ha : a = 0 := by simpa using hlt
    subst ha
    simp at hget
    subst hget
    simp
  · subst hroot
    obtain ⟨hr2, rootNode, parent, ca, c, diff, t1, t3, _, _, hc, _, hcase⟩ :=
      insert_node_some_inv h 0 key value t h2 root2 t2 hres
    refine Or.inr ⟨hr2, ?_⟩
    have hca : ca < h.length := (List.getElem?_eq_some_iff.mp hc).1
    rcases hcase with ⟨_, hh⟩ | ⟨hz, bit, newNode, p, _, hnew, hp, hh⟩
    · subst hh
      obtain ⟨_, hl, hr⟩ := hs.2 ca c hc
      exact Shaped.set h hs ca c _ hc rfl hl hr
    · have hs2 : Shaped (h ++ [newNode]) := by
        by_cases hb : bit = 0
        · rw [if_pos hb] at hnew
          subst hnew
          exact Shaped.append h hs _ hz ca h.length rfl (by omega) rfl (le_refl _)
        · rw [if_neg hb] at hnew
          subst hnew
          exact Shaped.append h hs _ hz h.length ca rfl (le_refl _) rfl (by omega)
      obtain ⟨_, hl, hr⟩ := hs2.2 parent p hp
      have hlen : h.length < (h ++ [newNode]).length := by simp
      rcases hh with hh | hh <;> subst hh
      · exact Shaped.set _ hs2 parent p _ hp rfl ⟨h.length, rfl, hlen⟩ hr
      · exact Shaped.set _ hs2 parent p _ hp rfl hl (fun _ => ⟨h.length, rfl, hlen⟩)

/-- The driver's insertion loop keeps the shape of the trie, and every key in the
heap afterwards was in the heap before or is one of the inserted keys. -/
theorem insert_all_inv :
    ∀ (kvs : List (Key × suburb_data)) (s s2 : State), insert_all s kvs = .ok s2 →
      TrieInv s.heap s.root →
      TrieInv s2.heap s2.root
      ∧ ∀ node ∈ s2.heap, (∃ old ∈ s.heap, old.key = node.key) ∨ node.key ∈ kvs.map Prod.fst := by
  intro kvs
  induction kvs with
  | nil =>
    intro s s2 hres hinv
    simp only [insert_all] at hres
    cases hres
    exact ⟨hinv, fun node hm => Or.inl ⟨node, hm, rfl⟩⟩
  | cons kv rest ih =>
    intro s s2 hres hinv
    obtain ⟨k, v⟩ := kv
    simp only [insert_all, State.insert] at hres
    cases hins : insert_node s.heap s.root k v s.tracker with
    | error f => rw [hins] at hres; cases hres
    | ok x =>
      obtain ⟨h1, r1, t1⟩ := x
      rw [hins] at hres
      dsimp only at hres
      have hinv1 := insert_node_inv _ _ _ _ _ _ _ _ hins hinv
      have hkeys1 := insert_node_keys _ _ _ _ _ _ _ _ hins
      obtain ⟨hinv2, hkeys2⟩ := ih { heap := h1, root := r1, tracker := t1 } s2 hres hinv1
      refine ⟨hinv2, ?_⟩
      intro node hm
      rcases hkeys2 node hm with ⟨old, hold, hk⟩ | hk
      · rcases hkeys1 old hold with hk1 | ⟨old0, hold0, hk0⟩
        · right
          simp only [List.map_cons, List.mem_cons]
          left
          rw [← hk, hk1]
        · exact Or.inl ⟨old0, hold0, hk0.trans hk⟩
      · right
        simp only [List.map_cons, List.mem_cons]
        exact Or.inr hk

/-- A trie built from the empty one has the shape, and its keys are inserted keys. -/
theorem build_inv (kvs : List (Key × suburb_data)) (s : State) (hb : build kvs = .ok s) :
    TrieInv s.heap s.root ∧ ∀ node ∈ s.heap, node.key ∈ kvs.map Prod.fst := by
  obtain ⟨hinv, hkeys⟩ := insert_all_inv kvs State.empty s hb (Or.inl ⟨rfl, rfl⟩)
  refine ⟨hinv, ?_⟩
  intro node hm
  rcases hkeys node hm with ⟨old, hold, _⟩ | hk
  · simp [State.empty] at hold
  · exact hk

/-! ## The descent ends -/

/-- Fewer cells lie above a larger diff: the measure that bounds the descent loop. -/
theorem countP_diff_lt (h : Heap) (d d2 : Nat) (hd : d < d2) (c : patricia_node)
    (hc : c ∈ h) (hcd : c.diff = d2) :
    h.countP (fun n => decide (d2 < n.diff)) < h.countP (fun n => decide (d < n.diff)) := by
  induction h with
  | nil => simp at hc
  | cons x xs ih =>
    have hmono : xs.countP (fun n => decide (d2 < n.diff))
        ≤ xs.countP (fun n => decide (d < n.diff)) := by
      apply List.countP_mono_left
      intro y _ hy
      simp only [decide_eq_true_eq] at hy ⊢
      omega
    rw [List.countP_cons, List.countP_cons]
    rcases List.mem_cons.mp hc with hx | hx
    · subst hx
      have h1 : decide (d2 < c.diff) = false := by simp [hcd]
      have h2 : decide (d < c.diff) = true := by simp [hcd, hd]
      simp only [h1, h2, if_true]
      simp
      omega
    · have hlt := ih hx
      by_cases hx2 : d2 < x.diff
      · have hx1 : d < x.diff := by omega
        simp only [hx2, hx1, decide_True, if_true]
        omega
      · by_cases hx1 : d < x.diff
        · simp only [hx2, hx1, decide_True, decide_False, if_true]
          simp
          omega
        · simp only [hx2, hx1, decide_False]
          simp
          omega

theorem countP_lt_length (h : Heap) (q : patricia_node → Bool) (c : patricia_node)
    (hc : c ∈ h) (hq : q c = false) : h.countP q < h.length := by
  have hle := List.countP_le_length q (l := h)
  have hne : h.countP q ≠ h.length := by
    intro heq
    have hall := List.countP_eq_length.mp heq c hc
    rw [hq] at hall
    cases hall
  omega

/-- On a heap of the shape `insert_node` builds, the descent loop, started at two
allocated cells with more fuel than there are cells above the parent's diff, ends
at an allocated child, provided every bit it asks for is in the key's storage. -/
theorem descend_ok (h : Heap) (key : Key) (hs : Shaped h)
    (hlen : ∀ node ∈ h, node.diff / 8 ≤ key.length) :
    ∀ (fuel parent ca : Nat) (t : comparison_tracker) (p : patricia_node),
      h[parent]? = some p → ca < h.length →
      h.countP (fun n => decide (p.diff < n.diff)) < fuel →
      ∃ parent2 ca2 t2,
        descend h key fuel parent (some ca) t = .ok (parent2, some ca2, t2)
        ∧ ca2 < h.length := by
  intro fuel
  induction fuel with
  | zero => intro parent ca t p _ _ hf; omega
  | succ n ih =>
    intro parent ca t p hp hca hf
    obtain ⟨c, hc⟩ : ∃ c, h[ca]? = some c := ⟨h[ca], List.getElem?_eq_getElem hca⟩
    have hcm : c ∈ h := List.mem_iff_getElem?.mpr ⟨ca, hc⟩
    simp only [descend, (deref_some_iff h parent p).mpr hp, (deref_some_iff h ca c).mpr hc]
    by_cases hlt : p.diff < c.diff
    · rw [if_pos hlt, getBit_eq key c.diff _ (hlen c hcm)]
      dsimp only
      obtain ⟨hzero, ⟨l, hl, hll⟩, hr⟩ := hs.2 ca c hc
      have hcapos : 0 < ca := by
        rcases Nat.eq_zero_or_pos ca with h0 | h0
        · have := hzero.mpr h0
          omega
        · exact h0
      obtain ⟨r, hr, hrl⟩ := hr hcapos
      have hfuel : h.countP (fun n => decide (c.diff < n.diff)) < n := by
        have := countP_diff_lt h p.diff c.diff hlt c hcm rfl
        omega
      split
      · rw [hl]
        exact ih ca l _ c hc hll hfuel
      · rw [hr]
        exact ih ca r _ c hc hrl hfuel
    · rw [if_neg hlt]
      exact ⟨parent, ca, t, rfl, hca⟩

/-! ## Searching -/

/-- A node `search_node` returns carries the key that was searched for. -/
theorem search_node_found (h : Heap) (root : Ptr) (key : Key) (t t2 : comparison_tracker)
    (a : Nat) (hres : search_node h root key t = .ok (some a, t2)) :
    ∃ c, h[a]? = some c ∧ c.key = key := by
  cases root with
  | none => simp [search_node] at hres
  | some r =>
    simp only [search_node] at hres
    cases hroot : deref h (some r) with
    | error f => rw [hroot] at hres; cases hres
    | ok rootNode =>
      rw [hroot] at hres; dsimp only at hres
      cases hdesc : descend h key h.length r rootNode.left
          { t with node_accesses := t.node_accesses + 1 } with
      | error f => rw [hdesc] at hres; cases hres
      | ok x =>
        obtain ⟨parent, child, t1⟩ := x
        rw [hdesc] at hres; dsimp only at hres
        cases hc : deref h child with
        | error f => rw [hc] at hres; cases hres
        | ok c =>
          rw [hc] at hres; dsimp only at hres
          by_cases hk : c.key = key
          · rw [if_pos hk] at hres
            cases hres
            exact ⟨c, (deref_some_iff h a c).mp hc, hk⟩
          · rw [if_neg hk] at hres
            cases hres

/-- On a heap of the shape `insert_node` builds, `search_node` from the root returns
(a pointer or `NULL`), provided every stored diff addresses a byte of the key's
storage. -/
theorem search_node_ok (h : Heap) (key : Key) (t : comparison_tracker) (hs : Shaped h)
    (hlen : ∀ node ∈ h, node.diff / 8 ≤ key.length) :
    ∃ p t2, search_node h (some 0) key t = .ok (p, t2) := by
  have hpos : 0 < h.length := hs.1
  obtain ⟨n0, hn0⟩ : ∃ n0, h[0]? = some n0 := ⟨h[0], List.getElem?_eq_getElem hpos⟩
  obtain ⟨_, ⟨l, hl, hll⟩, _⟩ := hs.2 0 n0 hn0
  have hn0m : n0 ∈ h := List.mem_iff_getElem?.mpr ⟨0, hn0⟩
  have hfuel : h.countP (fun n => decide (n0.diff < n.diff)) < h.length :=
    countP_lt_length h _ n0 hn0m (by simp)
  obtain ⟨parent2, ca2, t2, hdesc, hca2⟩ :=
    descend_ok h key hs hlen h.length 0 l { t with node_accesses := t.node_accesses + 1 }
      n0 hn0 hll hfuel
  obtain ⟨c, hc⟩ : ∃ c, h[ca2]? = some c := ⟨h[ca2], List.getElem?_eq_getElem hca2⟩
  simp only [search_node, (deref_some_iff h 0 n0).mpr hn0, hl, hdesc,
    (deref_some_iff h ca2 c).mpr hc]
  split
  · exact ⟨_, _, rfl⟩
  · exact ⟨_, _, rfl⟩

/-! ## Runs on concrete inputs -/

/-- C1 (round trip, dict4.c): after inserting the two distinct non-empty keys
"a" (record 1) and "b" (record 2) into the empty trie, `search_node` returns
`NULL` for "a" and for "b": neither record is read back. -/
theorem C1_round_trip_lost_after_two_inserts :
    (build [(key_a, 1), (key_b, 2)]).map
        (fun (s : State) => (s.search key_a, s.search key_b))
      = .ok (.ok none, .ok none) := by
  decide

/-- C2 (idempotent overwrite, dict4.c): inserting "a" with record 1 and then "a"
again with record 2 leaves two nodes whose key is "a", and `search_node` for "a"
returns the node that still carries record 1. -/
theorem C2_second_insert_of_same_key_adds_node :
    (build [(key_a, 1), (key_a, 2)]).map
        (fun (s : State) =>
          ((s.heap.filter (fun node => node.key = key_a)).length,
           (s.search key_a).map (valueAt s.heap)))
      = .ok (2, .ok (some 1)) := by
  decide

/-- C5 (prefix keys end to end, dict4.c): after inserting "Carlton",
"Carlton North" and "Parkville" with records 1, 2, 3, `search_node` for "Carlton"
returns `NULL` (and so does the one for "Brunswick"). -/
theorem C5_carlton_not_found :
    (build [(key_Carlton, 1), (key_Carlton_North, 2), (key_Parkville, 3)]).map
        (fun (s : State) => (s.search key_Carlton, s.search key_Brunswick))
      = .ok (.ok none, .ok none) := by
  decide

/-- C8 (diff computation example), as the spec states it: `compute_diff("Ab", "Ac")`
is not 14. -/
theorem C8_diff_Ab_Ac_is_not_14 :
    (compute_diff (some key_Ab) (some key_Ac) comparison_tracker.zero).map Prod.fst
      ≠ .ok 14 := by
  decide

/-- C8 (diff computation example), amended: whatever the tracker,
`compute_diff("Ab", "Ac")` returns 15; `getBit` gives the same bit for "Ab" and "Ac"
at every index 0 to 14 and different bits at index 15. -/
theorem C8_diff_Ab_Ac_is_15 (t : comparison_tracker) :
    (compute_diff (some key_Ab) (some key_Ac) t).map Prod.fst = .ok 15
    ∧ (∀ i, i < 15 → (getBit key_Ab i t).map Prod.fst = (getBit key_Ac i t).map Prod.fst)
    ∧ (getBit key_Ab 15 t).map Prod.fst ≠ (getBit key_Ac 15 t).map Prod.fst := by
  refine ⟨?_, ?_, ?_⟩
  · rw [compute_diff_fst]; decide
  · intro i hi
    rw [getBit_fst key_Ab, getBit_fst key_Ac]
    revert i
    decide
  · rw [getBit_fst key_Ab, getBit_fst key_Ac]; decide

/-- On the heap built from "a" and "b" the walk started at either node uses up any
fuel: the root's `left` is the node of "b", whose `right` is the root again. -/
theorem print_heap_a_b_out_of_fuel :
    ∀ (fuel : Nat) (out : List Nat),
      print_patricia_trie heap_a_b fuel (some 0) out = .error .outOfFuel
      ∧ print_patricia_trie heap_a_b fuel (some 1) out = .error .outOfFuel := by
  intro fuel
  induction fuel with
  | zero => intro out; exact ⟨rfl, rfl⟩
  | succ n ih =>
    intro out
    have d0 : deref heap_a_b (some 0)
        = .ok { key := [97], diff := 0, value := 1, left := some 1, right := none } := rfl
    have d1 : deref heap_a_b (some 1)
        = .ok { key := [98], diff := 6, value := 2, left := some 1, right := some 0 } := rfl
    constructor
    · simp [print_patricia_trie, d0, (ih out).2]
    · simp [print_patricia_trie, d1, (ih (out ++ [1])).1]

/-- C4 (completeness of traversal, dict4.c): on the trie built by inserting "a" and
then "b", the recursion of `print_patricia_trie` from the root does not end: whatever
recursion depth is allowed, the walk is still descending when it is used up. -/
theorem C4_walk_of_two_keys_never_returns (fuel : Nat) :
    (build [(key_a, 1), (key_b, 2)]).map
        (fun (s : State) => (s.heap, print_patricia_trie s.heap fuel s.root []))
      = .ok (heap_a_b, .error .outOfFuel) := by
  have hb : build [(key_a, 1), (key_b, 2)]
      = .ok { heap := heap_a_b, root := some 0,
              tracker := { bit_comparisons := 16, node_accesses := 0,
                           string_comparisons := 1 } } := by
    decide
  rw [hb]
  simp only [Run.map, (print_heap_a_b_out_of_fuel fuel []).1]

end Dict4

/-! ## More runs on concrete inputs -/

namespace Dict4

/-- C16 (new-node wiring, dict4.c): inserting "b" after "a" creates the node of "b"
at bit index 6, where `getBit("b", 6)` is 1; the new node's branch 1 (`right`) points
to the candidate (the root, address 0) and its branch 0 (`left`) to the new node
itself (address 1): the self-reference is on the branch opposite to the key's bit. -/
theorem C16_self_reference_on_opposite_branch :
    (build [(key_a, 1), (key_b, 2)]).map
        (fun (s : State) =>
          (s.heap.get? 1).map (fun node => (node.key, node.diff, node.left, node.right)))
      = .ok (some (key_b, 6, some 1, some 0))
    ∧ (getBit key_b 6 comparison_tracker.zero).map Prod.fst = .ok 1 := by
  decide

/-- C18 (a new key never overwrites, dict4.c): inserting the one-byte key 0xE1 with
record 2 after "a" with record 1 creates no node; the only node keeps key "a" and now
carries record 2. -/
theorem C18_new_key_overwrites_root :
    (build [(key_a, 1), (key_E1, 2)]).map (fun (s : State) => s.heap)
      = .ok [{ key := key_a, diff := 0, value := 2, left := some 0, right := none }]
    ∧ key_E1 ≠ key_a := by
  decide

/-- On the heap built from "a" and "b" the teardown started at either node uses up
any fuel: the root's `left` is the node of "b", whose `right` is the root again. -/
theorem free_heap_a_b_out_of_fuel :
    ∀ (fuel : Nat) (freed : List Nat),
      free_patricia_trie heap_a_b fuel (some 0) freed = .error .outOfFuel
      ∧ free_patricia_trie heap_a_b fuel (some 1) freed = .error .outOfFuel := by
  intro fuel
  induction fuel with
  | zero => intro freed; exact ⟨rfl, rfl⟩
  | succ n ih =>
    intro freed
    have d0 : deref heap_a_b (some 0)
        = .ok { key := [97], diff := 0, value := 1, left := some 1, right := none } := rfl
    have d1 : deref heap_a_b (some 1)
        = .ok { key := [98], diff := 6, value := 2, left := some 1, right := some 0 } := rfl
    constructor
    · simp [free_patricia_trie, d0, (ih freed).2]
    · simp [free_patricia_trie, d1, (ih freed).1]

/-- C19 (teardown walk, dict4.c): on the trie built by inserting "a" and then "b",
the recursion of `free_patricia_trie` from the root does not end: whatever recursion
depth is allowed, the walk is still descending when it is used up, and no node has
been released. -/
theorem C19_teardown_of_two_keys_never_returns (fuel : Nat) :
    (build [(key_a, 1), (key_b, 2)]).map
        (fun (s : State) => (s.heap, free_patricia_trie s.heap fuel s.root []))
      = .ok (heap_a_b, .error .outOfFuel) := by
  have hb : build [(key_a, 1), (key_b, 2)]
      = .ok { heap := heap_a_b, root := some 0,
              tracker := { bit_comparisons := 16, node_accesses := 0,
                           string_comparisons := 1 } } := by
    decide
  rw [hb]
  simp only [Run.map, (free_heap_a_b_out_of_fuel fuel []).1]

/-- C14 (round trip, main.c): the self-check of main.c on the names "a" and "aa"
reports `NULL` ("NOTFOUND") for "a": the descent reads bit 8 of "a", the
terminator's 0, which is also bit 8 of "aa", and stops on the node of "aa". -/
theorem C14_self_check_misses_a_key :
    MainC.self_check [(key_a, 1), (key_aa, 2)] = .ok [.ok none, .ok (some 1)] := by
  decide

/-- C20 (the two trie variants agree): after inserting "a" (record 1) and "b"
(record 2), `search_node` of main.c finds "b" in the node with key "b" and record 2,
while `search_node` of dict4.c returns `NULL` for "b". -/
theorem C20_variants_disagree :
    (MainC.build [(key_a, 1), (key_b, 2)]).map
        (fun s => (MainC.search_node s.1 s.2 key_b).map
          (fun p => (p, (valueAt s.1 p), p.bind (fun a => (s.1.get? a).map (fun node => node.key)))))
      = .ok (.ok (some 1, some 2, some key_b))
    ∧ (build [(key_a, 1), (key_b, 2)]).map (fun (s : State) => s.search key_b)
      = .ok (.ok none) := by
  decide

end Dict4

/-! ## The descent, step by step -/

namespace Dict4

/-- `getBit` either reads inside the key's storage and returns the spec's bit, or is
asked for a byte past the terminator and faults. -/
theorem getBit_cases (s : Key) (i : Nat) (t : comparison_tracker) :
    (i / 8 ≤ s.length
      ∧ getBit s i t
          = .ok ((specBit s i).toNat, { t with bit_comparisons := t.bit_comparisons + 1 }))
    ∨ (s.length < i / 8 ∧ getBit s i t = .error .outOfBounds) := by
  by_cases h : i / 8 ≤ s.length
  · exact Or.inl ⟨h, getBit_eq s i t h⟩
  · right
    refine ⟨by omega, ?_⟩
    have hb : readByte s (i / BITS_PER_BYTE) = .error .outOfBounds := by
      simp only [readByte, BITS_PER_BYTE]
      rw [if_neg (by omega), if_neg (by omega)]
    simp only [getBit, hb]

/-- Whatever `descend` returns, `descend_trace` returns the nodes it moved into, one
per iteration: each iteration adds one node access and one bit comparison. -/
theorem descend_trace_of_descend (h : Heap) (key : Key) :
    ∀ (fuel parent : Nat) (child : Ptr) (t : comparison_tracker) (p2 : Nat) (c2 : Ptr)
      (t2 : comparison_tracker),
      descend h key fuel parent child t = .ok (p2, c2, t2) →
      ∃ path, descend_trace h key fuel parent child = .ok path
        ∧ t2 = t.add { bit_comparisons := path.length, node_accesses := path.length,
                       string_comparisons := 0 } := by
  intro fuel
  induction fuel with
  | zero => intro parent child t p2 c2 t2 hres; cases hres
  | succ n ih =>
    intro parent child t p2 c2 t2 hres
    simp only [descend] at hres
    simp only [descend_trace]
    cases hp : deref h (some parent) with
    | error f => rw [hp] at hres; cases hres
    | ok p =>
      rw [hp] at hres; dsimp only at hres ⊢
      cases child with
      | none => cases hres
      | some ca =>
        dsimp only at hres ⊢
        cases hc : deref h (some ca) with
        | error f => rw [hc] at hres; cases hres
        | ok c =>
          rw [hc] at hres; dsimp only at hres ⊢
          by_cases hlt : p.diff < c.diff
          · rw [if_pos hlt] at hres ⊢
            rcases getBit_cases key c.diff { t with node_accesses := t.node_accesses + 1 }
              with ⟨hin, hg⟩ | ⟨_, hg⟩
            · rw [hg] at hres
              rw [getBit_eq key c.diff comparison_tracker.zero hin]
              dsimp only at hres ⊢
              by_cases hb : (specBit key c.diff).toNat = 0
              · rw [if_pos hb] at hres ⊢
                obtain ⟨path, hpath, ht2⟩ := ih ca c.left _ p2 c2 t2 hres
                rw [hpath]
                refine ⟨ca :: path, rfl, ?_⟩
                rw [ht2]
                simp only [comparison_tracker.add, List.length_cons, Nat.cast_add, Nat.cast_one,
                  comparison_tracker.mk.injEq]
                exact ⟨by omega, by omega, trivial⟩
              · rw [if_neg hb] at hres ⊢
                obtain ⟨path, hpath, ht2⟩ := ih ca c.right _ p2 c2 t2 hres
                rw [hpath]
                refine ⟨ca :: path, rfl, ?_⟩
                rw [ht2]
                simp only [comparison_tracker.add, List.length_cons, Nat.cast_add, Nat.cast_one,
                  comparison_tracker.mk.injEq]
                exact ⟨by omega, by omega, trivial⟩
            · rw [hg] at hres; cases hres
          · rw [if_neg hlt] at hres ⊢
            cases hres
            refine ⟨[], rfl, ?_⟩
            simp only [comparison_tracker.add, List.length_nil, Nat.cast_zero, add_zero]

/-- The descent moves only to a cell with a larger diff: the diffs along the nodes
it moves into, from the starting parent on, increase strictly. -/
theorem descend_trace_chain (h : Heap) (key : Key) :
    ∀ (fuel parent : Nat) (child : Ptr) (path : List Nat),
      descend_trace h key fuel parent child = .ok path →
      List.Chain (fun a b => diffAt h a < diffAt h b) parent path := by
  intro fuel
  induction fuel with
  | zero => intro parent child path hres; cases hres
  | succ n ih =>
    intro parent child path hres
    simp only [descend_trace] at hres
    cases hp : deref h (some parent) with
    | error f => rw [hp] at hres; cases hres
    | ok p =>
      rw [hp] at hres; dsimp only at hres
      cases child with
      | none => cases hres
      | some ca =>
        dsimp only at hres
        cases hc : deref h (some ca) with
        | error f => rw [hc] at hres; cases hres
        | ok c =>
          rw [hc] at hres; dsimp only at hres
          have hdp : diffAt h parent = p.diff := by
            simp only [diffAt, List.get?_eq_getElem?, (deref_some_iff h parent p).mp hp]
          have hdc : diffAt h ca = c.diff := by
            simp only [diffAt, List.get?_eq_getElem?, (deref_some_iff h ca c).mp hc]
          by_cases hlt : p.diff < c.diff
          · rw [if_pos hlt] at hres
            cases hg : getBit key c.diff comparison_tracker.zero with
            | error f => rw [hg] at hres; cases hres
            | ok x =>
              obtain ⟨bit, tz⟩ := x
              rw [hg] at hres; dsimp only at hres
              have hstep : diffAt h parent < diffAt h ca := by rw [hdp, hdc]; exact hlt
              by_cases hb : bit = 0
              · rw [if_pos hb] at hres
                cases hrec : descend_trace h key n ca c.left with
                | error f => rw [hrec] at hres; cases hres
                | ok rest =>
                  rw [hrec] at hres
                  cases hres
                  exact List.Chain.cons hstep (ih ca c.left rest hrec)
              · rw [if_neg hb] at hres
                cases hrec : descend_trace h key n ca c.right with
                | error f => rw [hrec] at hres; cases hres
                | ok rest =>
                  rw [hrec] at hres
                  cases hres
                  exact List.Chain.cons hstep (ih ca c.right rest hrec)
          · rw [if_neg hlt] at hres
            cases hres
            exact List.Chain.nil

/-- The descent moves into fewer nodes than it has fuel. -/
theorem descend_trace_length (h : Heap) (key : Key) :
    ∀ (fuel parent : Nat) (child : Ptr) (path : List Nat),
      descend_trace h key fuel parent child = .ok path → path.length < fuel := by
  intro fuel
  induction fuel with
  | zero => intro parent child path hres; cases hres
  | succ n ih =>
    intro parent child path hres
    simp only [descend_trace] at hres
    cases hp : deref h (some parent) with
    | error f => rw [hp] at hres; cases hres
    | ok p =>
      rw [hp] at hres; dsimp only at hres
      cases child with
      | none => cases hres
      | some ca =>
        dsimp only at hres
        cases hc : deref h (some ca) with
        | error f => rw [hc] at hres; cases hres
        | ok c =>
          rw [hc] at hres; dsimp only at hres
          by_cases hlt : p.diff < c.diff
          · rw [if_pos hlt] at hres
            cases hg : getBit key c.diff comparison_tracker.zero with
            | error f => rw [hg] at hres; cases hres
            | ok x =>
              obtain ⟨bit, tz⟩ := x
              rw [hg] at hres; dsimp only at hres
              by_cases hb : bit = 0
              · rw [if_pos hb] at hres
                cases hrec : descend_trace h key n ca c.left with
                | error f => rw [hrec] at hres; cases hres
                | ok rest =>
                  rw [hrec] at hres
                  cases hres
                  have := ih ca c.left rest hrec
                  simp only [List.length_cons]
                  omega
              · rw [if_neg hb] at hres
                cases hrec : descend_trace h key n ca c.right with
                | error f => rw [hrec] at hres; cases hres
                | ok rest =>
                  rw [hrec] at hres
                  cases hres
                  have := ih ca c.right rest hrec
                  simp only [List.length_cons]
                  omega
          · rw [if_neg hlt] at hres
            cases hres
            simp

end Dict4

/-! ## Search and insert always come back -/

namespace Dict4

/-- On a heap of the shape `insert_node` builds, the descent loop started at two
allocated cells, with more fuel than there are cells above the parent's diff, ends
at an allocated parent and child, unless it asks for a bit past the key's storage;
that happens only when some stored diff addresses a byte past the key's storage. -/
theorem descend_total (h : Heap) (key : Key) (hs : Shaped h) :
    ∀ (fuel parent ca : Nat) (t : comparison_tracker) (p : patricia_node),
      h[parent]? = some p → ca < h.length →
      h.countP (fun n => decide (p.diff < n.diff)) < fuel →
      (∃ parent2 ca2 t2,
          descend h key fuel parent (some ca) t = .ok (parent2, some ca2, t2)
          ∧ parent2 < h.length ∧ ca2 < h.length)
      ∨ (descend h key fuel parent (some ca) t = .error .outOfBounds
          ∧ ∃ node ∈ h, key.length < node.diff / 8) := by
  intro fuel
  induction fuel with
  | zero => intro parent ca t p _ _ hf; omega
  | succ n ih =>
    intro parent ca t p hp hca hf
    obtain ⟨c, hc⟩ : ∃ c, h[ca]? = some c := ⟨h[ca], List.getElem?_eq_getElem hca⟩
    have hcm : c ∈ h := List.mem_iff_getElem?.mpr ⟨ca, hc⟩
    have hpl : parent < h.length := (List.getElem?_eq_some_iff.mp hp).1
    simp only [descend, (deref_some_iff h parent p).mpr hp, (deref_some_iff h ca c).mpr hc]
    by_cases hlt : p.diff < c.diff
    · rw [if_pos hlt]
      rcases getBit_cases key c.diff { t with node_accesses := t.node_accesses + 1 }
        with ⟨_, hg⟩ | ⟨hout, hg⟩
      · rw [hg]
        dsimp only
        obtain ⟨hzero, ⟨l, hl, hll⟩, hr⟩ := hs.2 ca c hc
        have hcapos : 0 < ca := by
          rcases Nat.eq_zero_or_pos ca with h0 | h0
          · have := hzero.mpr h0
            omega
          · exact h0
        obtain ⟨r, hr, hrl⟩ := hr hcapos
        have hfuel : h.countP (fun n => decide (c.diff < n.diff)) < n := by
          have := countP_diff_lt h p.diff c.diff hlt c hcm rfl
          omega
        split
        · rw [hl]
          exact ih ca l _ c hc hll hfuel
        · rw [hr]
          exact ih ca r _ c hc hrl hfuel
      · rw [hg]
        exact Or.inr ⟨rfl, c, hcm, hout⟩
    · rw [if_neg hlt]
      exact Or.inl ⟨parent, ca, t, rfl, hpl, hca⟩

/-- On a heap of the shape `insert_node` builds, `search_node` from the root
returns, unless it asks for a bit past the key's storage. -/
theorem search_node_total (h : Heap) (key : Key) (t : comparison_tracker) (hs : Shaped h) :
    (∃ p t2, search_node h (some 0) key t = .ok (p, t2))
    ∨ (search_node h (some 0) key t = .error .outOfBounds
        ∧ ∃ node ∈ h, key.length < node.diff / 8) := by
  have hpos : 0 < h.length := hs.1
  obtain ⟨n0, hn0⟩ : ∃ n0, h[0]? = some n0 := ⟨h[0], List.getElem?_eq_getElem hpos⟩
  obtain ⟨_, ⟨l, hl, hll⟩, _⟩ := hs.2 0 n0 hn0
  have hn0m : n0 ∈ h := List.mem_iff_getElem?.mpr ⟨0, hn0⟩
  have hfuel : h.countP (fun n => decide (n0.diff < n.diff)) < h.length :=
    countP_lt_length h _ n0 hn0m (by simp)
  simp only [search_node, (deref_some_iff h 0 n0).mpr hn0, hl]
  rcases descend_total h key hs h.length 0 l { t with node_accesses := t.node_accesses + 1 }
      n0 hn0 hll hfuel with ⟨parent2, ca2, t2, hdesc, _, hca2⟩ | ⟨hdesc, hnode⟩
  · obtain ⟨c, hc⟩ : ∃ c, h[ca2]? = some c := ⟨h[ca2], List.getElem?_eq_getElem hca2⟩
    rw [hdesc]
    simp only [(deref_some_iff h ca2 c).mpr hc]
    left
    split
    · exact ⟨_, _, rfl⟩
    · exact ⟨_, _, rfl⟩
  · rw [hdesc]
    exact Or.inr ⟨rfl, hnode⟩

/-- On a heap of the shape `insert_node` builds, `insert_node` from the root
returns, unless it asks for a bit past the key's storage. -/
theorem insert_node_total (h : Heap) (key : Key) (value : suburb_data)
    (t : comparison_tracker) (hs : Shaped h) :
    (∃ h2 t2, insert_node h (some 0) key value t = .ok (h2, some 0, t2))
    ∨ (insert_node h (some 0) key value t = .error .outOfBounds
        ∧ ∃ node ∈ h, key.length < node.diff / 8) := by
  have hpos : 0 < h.length := hs.1
  obtain ⟨n0, hn0⟩ : ∃ n0, h[0]? = some n0 := ⟨h[0], List.getElem?_eq_getElem hpos⟩
  obtain ⟨_, ⟨l, hl, hll⟩, _⟩ := hs.2 0 n0 hn0
  have hn0m : n0 ∈ h := List.mem_iff_getElem?.mpr ⟨0, hn0⟩
  have hfuel : h.countP (fun n => decide (n0.diff < n.diff)) < h.length :=
    countP_lt_length h _ n0 hn0m (by simp)
  simp only [insert_node, (deref_some_iff h 0 n0).mpr hn0, hl]
  rcases descend_total h key hs h.length 0 l t n0 hn0 hll hfuel
    with ⟨parent2, ca2, t1, hdesc, hp2, hca2⟩ | ⟨hdesc, hnode⟩
  · obtain ⟨c, hc⟩ : ∃ c, h[ca2]? = some c := ⟨h[ca2], List.getElem?_eq_getElem hca2⟩
    obtain ⟨p, hp⟩ : ∃ p, h[parent2]? = some p := ⟨h[parent2], List.getElem?_eq_getElem hp2⟩
    have hpm : p ∈ h := List.mem_iff_getElem?.mpr ⟨parent2, hp⟩
    obtain ⟨d, t3, hcd, hdm, _, _⟩ := compute_diff_some c.key key t1
    rw [hdesc]
    simp only [(deref_some_iff h ca2 c).mpr hc, hcd]
    by_cases hz : d = 0
    · rw [if_pos hz]
      exact Or.inl ⟨_, _, rfl⟩
    · rw [if_neg hz]
      have hin : d / 8 ≤ key.length := by omega
      simp only [create_node, getBit_eq key d _ hin, deref_append_new, set_append_new]
      have hderef : ∀ node : patricia_node,
          deref (h ++ [node]) (some parent2) = .ok p := by
        intro node
        rw [deref_some_iff, List.getElem?_append_left hp2]
        exact hp
      by_cases hb : (specBit key d).toNat = 0
      · simp only [hb, if_true, hderef]
        rcases getBit_cases key p.diff
            { bit_comparisons := t3.bit_comparisons + 1, node_accesses := t3.node_accesses,
              string_comparisons := t3.string_comparisons + 1 }
          with ⟨_, hg⟩ | ⟨hout, hg⟩
        · rw [hg]
          dsimp only
          left
          split
          · exact ⟨_, _, rfl⟩
          · exact ⟨_, _, rfl⟩
        · rw [hg]
          exact Or.inr ⟨rfl, p, hpm, hout⟩
      · simp only [hb, if_false, hderef]
        rcases getBit_cases key p.diff
            { bit_comparisons := t3.bit_comparisons + 1, node_accesses := t3.node_accesses,
              string_comparisons := t3.string_comparisons + 1 }
          with ⟨_, hg⟩ | ⟨hout, hg⟩
        · rw [hg]
          dsimp only
          left
          split
          · exact ⟨_, _, rfl⟩
          · exact ⟨_, _, rfl⟩
        · rw [hg]
          exact Or.inr ⟨rfl, p, hpm, hout⟩
  · rw [hdesc]
    exact Or.inr ⟨rfl, hnode⟩

end Dict4

/-! ## What one search costs, and which nodes it visits -/

namespace Dict4

/-- What a `search_node` call that returned did: one node access for the root, the
descent, one string comparison, and the comparison of the child's key. -/
theorem search_node_some_inv (h : Heap) (r : Nat) (key : Key) (t t2 : comparison_tracker)
    (p : Ptr) (hres : search_node h (some r) key t = .ok (p, t2)) :
    ∃ (rootNode : patricia_node) (parent : Nat) (child : Ptr) (t1 : comparison_tracker)
      (c : patricia_node),
      deref h (some r) = .ok rootNode
      ∧ descend h key h.length r rootNode.left
          { t with node_accesses := t.node_accesses + 1 } = .ok (parent, child, t1)
      ∧ deref h child = .ok c
      ∧ t2 = { t1 with string_comparisons := t1.string_comparisons + 1 }
      ∧ p = (if c.key = key then child else none) := by
  simp only [search_node] at hres
  cases hroot : deref h (some r) with
  | error f => rw [hroot] at hres; cases hres
  | ok rootNode =>
    rw [hroot] at hres; dsimp only at hres
    cases hdesc : descend h key h.length r rootNode.left
        { t with node_accesses := t.node_accesses + 1 } with
    | error f => rw [hdesc] at hres; cases hres
    | ok x =>
      obtain ⟨parent, child, t1⟩ := x
      rw [hdesc] at hres; dsimp only at hres
      cases hc : deref h child with
      | error f => rw [hc] at hres; cases hres
      | ok c =>
        rw [hc] at hres; dsimp only at hres
        refine ⟨rootNode, parent, child, t1, c, rfl, hdesc, hc, ?_⟩
        by_cases hk : c.key = key
        · rw [if_pos hk] at hres ⊢
          cases hres
          exact ⟨rfl, rfl⟩
        · rw [if_neg hk] at hres ⊢
          cases hres
          exact ⟨rfl, rfl⟩

/-- A `search_node` call on a non-empty trie that returned visited the nodes of
`search_path`: the root and `d` more; it added `d` bit comparisons, `d + 1` node
accesses and one string comparison. -/
theorem search_node_cost (h : Heap) (r : Nat) (key : Key) (t t2 : comparison_tracker)
    (p : Ptr) (hres : search_node h (some r) key t = .ok (p, t2)) :
    ∃ (path : List Nat) (d : Nat), search_path h (some r) key = .ok path
      ∧ path.length = d + 1
      ∧ t2 = t.add { bit_comparisons := d, node_accesses := d + 1, string_comparisons := 1 } := by
  obtain ⟨rootNode, parent, child, t1, c, hroot, hdesc, _, ht2, _⟩ :=
    search_node_some_inv h r key t t2 p hres
  obtain ⟨path, hpath, ht1⟩ := descend_trace_of_descend h key _ _ _ _ _ _ _ hdesc
  refine ⟨r :: path, path.length, ?_, rfl, ?_⟩
  · simp only [search_path, hroot, hpath]
  · rw [ht2, ht1]
    simp only [comparison_tracker.add, Nat.cast_add, Nat.cast_one, comparison_tracker.mk.injEq]
    exact ⟨trivial, by omega, by omega⟩

/-- The nodes of a search path have strictly increasing diffs, so none occurs twice,
and there are at most as many as the heap has cells. -/
theorem search_path_increasing (h : Heap) (root : Ptr) (key : Key) (path : List Nat)
    (hres : search_path h root key = .ok path) :
    path.Chain' (fun a b => diffAt h a < diffAt h b)
    ∧ path.Pairwise (fun a b => diffAt h a < diffAt h b)
    ∧ path.Nodup
    ∧ path.length ≤ h.length := by
  cases root with
  | none =>
    simp only [search_path] at hres
    cases hres
    simp
  | some r =>
    simp only [search_path] at hres
    cases hroot : deref h (some r) with
    | error f => rw [hroot] at hres; cases hres
    | ok rootNode =>
      rw [hroot] at hres; dsimp only at hres
      cases htr : descend_trace h key h.length r rootNode.left with
      | error f => rw [htr] at hres; cases hres
      | ok rest =>
        rw [htr] at hres
        cases hres
        have hchain := descend_trace_chain h key _ _ _ _ htr
        have hlen := descend_trace_length h key _ _ _ _ htr
        haveI : IsTrans Nat (fun a b => diffAt h a < diffAt h b) :=
          ⟨fun a b c hab hbc => lt_trans hab hbc⟩
        have hpw : (r :: rest).Pairwise (fun a b => diffAt h a < diffAt h b) :=
          List.chain_iff_pairwise.mp hchain
        refine ⟨hchain, hpw, ?_, ?_⟩
        · exact hpw.imp (fun hab heq => by rw [heq] at hab; exact lt_irrefl _ hab)
        · simp only [List.length_cons]
          omega

/-- C11 (search instrumentation, dict4.c): on a trie built by `insert_node`, a
`search_node` call on the empty trie returns `NULL` and leaves the tracker as it
was; a call on a non-empty trie that returns has visited the root and `d` further
nodes (`d` iterations of the descent loop) and has added exactly `d` bit
comparisons, `d + 1` node accesses and 1 string comparison; and the call does return
whenever every stored diff addresses a byte of the key's storage. -/
theorem C11_search_counters (kvs : List (Key × suburb_data)) (s : State) (key : Key)
    (t : comparison_tracker) (hb : build kvs = .ok s) :
    (s.root = none → search_node s.heap s.root key t = .ok (none, t))
    ∧ (s.root ≠ none → ∀ p t2, search_node s.heap s.root key t = .ok (p, t2) →
        ∃ (path : List Nat) (d : Nat), search_path s.heap s.root key = .ok path
          ∧ path.length = d + 1
          ∧ t2.bit_comparisons = t.bit_comparisons + d
          ∧ t2.node_accesses = t.node_accesses + (d + 1)
          ∧ t2.string_comparisons = t.string_comparisons + 1)
    ∧ ((∀ node ∈ s.heap, node.diff / 8 ≤ key.length) →
        ∃ p t2, search_node s.heap s.root key t = .ok (p, t2)) := by
  refine ⟨?_, ?_, ?_⟩
  · intro hroot
    rw [hroot]
    rfl
  · intro hroot p t2 hres
    cases hr : s.root with
    | none => exact absurd hr hroot
    | some r =>
      rw [hr] at hres
      obtain ⟨path, d, hpath, hlen, ht2⟩ := search_node_cost _ _ _ _ _ _ hres
      refine ⟨path, d, hpath, hlen, ?_, ?_, ?_⟩
      · rw [ht2]; simp [comparison_tracker.add]
      · rw [ht2]; simp [comparison_tracker.add]
      · rw [ht2]; simp [comparison_tracker.add]
  · intro hlen
    rcases (build_inv kvs s hb).1 with ⟨_, hroot⟩ | ⟨hroot, hs⟩
    · rw [hroot]
      exact ⟨none, t, rfl⟩
    · rw [hroot]
      exact search_node_ok s.heap key t hs hlen

/-- C11 at a concrete input: the trie of "abc" and "abd", searched for "Ab". -/
theorem C11_search_counters_witness :
    build [(key_abc, 1), (key_abd, 2)] = .ok state_abc_abd
    ∧ (∀ node ∈ state_abc_abd.heap, node.diff / 8 ≤ key_Ab.length)
    ∧ ∃ p t2, search_node state_abc_abd.heap state_abc_abd.root key_Ab
        comparison_tracker.zero = .ok (p, t2) :=
  ⟨by decide, by decide,
   (C11_search_counters [(key_abc, 1), (key_abd, 2)] state_abc_abd key_Ab
      comparison_tracker.zero (by decide)).2.2 (by decide)⟩

end Dict4

/-! ## Bit reads, totality and the search path on built tries -/

namespace Dict4

/-- C12 (bit index stays inside the key, dict4.c), as the spec states it: on the
trie built from "abc" and "abd", `insert_node` of the non-empty key "a" asks `getBit`
for bit 21 of "a" (the diff of the node of "abd"), beyond `8 * len("a") = 8` and past
the terminator of "a". -/
theorem C12_short_key_insert_reads_past_key :
    (build [(key_abc, 1), (key_abd, 2)]).map (fun (s : State) => s.insert key_a 3)
      = .ok (.error .outOfBounds)
    ∧ (build [(key_abc, 1), (key_abd, 2)]).map (fun (s : State) => diffAt s.heap 1) = .ok 21
    ∧ 8 * key_a.length < 21
    ∧ getBit key_a 21 comparison_tracker.zero = .error .outOfBounds := by
  decide

/-- C12 (bit index stays inside the key, dict4.c), amended: on a trie built by
`insert_node`, for a key such that every stored diff addresses a byte of the key's
storage (`diff / 8 ≤ len(key)`), `search_node` and `insert_node` run to their end:
no `getBit` call of the descent, of `compute_diff` or of the splice reads past the
key's terminator.  And a call that does read past it meets a stored diff with
`len(key) < diff / 8`. -/
theorem C12_reads_inside_for_long_keys (kvs : List (Key × suburb_data)) (s : State)
    (key : Key) (value : suburb_data) (t : comparison_tracker) (hb : build kvs = .ok s) :
    ((∀ node ∈ s.heap, node.diff / 8 ≤ key.length) →
        (∃ p t2, search_node s.heap s.root key t = .ok (p, t2))
        ∧ (∃ h2 r2 t2, insert_node s.heap s.root key value t = .ok (h2, r2, t2)))
    ∧ (search_node s.heap s.root key t = .error .outOfBounds →
        ∃ node ∈ s.heap, key.length < node.diff / 8)
    ∧ (insert_node s.heap s.root key value t = .error .outOfBounds →
        ∃ node ∈ s.heap, key.length < node.diff / 8) := by
  rcases (build_inv kvs s hb).1 with ⟨hnil, hroot⟩ | ⟨hroot, hs⟩
  · rw [hroot]
    refine ⟨fun _ => ⟨⟨none, t, rfl⟩, ⟨_, _, _, insert_node_null _ _ _ _⟩⟩, ?_, ?_⟩
    · intro hres
      simp [search_node] at hres
    · intro hres
      rw [insert_node_null] at hres
      cases hres
  · rw [hroot]
    have hsearch := search_node_total s.heap key t hs
    have hinsert := insert_node_total s.heap key value t hs
    refine ⟨?_, ?_, ?_⟩
    · intro hlen
      constructor
      · rcases hsearch with hok | ⟨_, node, hm, hlt⟩
        · exact hok
        · exact absurd (hlen node hm) (by omega)
      · rcases hinsert with ⟨h2, t2, hok⟩ | ⟨_, node, hm, hlt⟩
        · exact ⟨h2, some 0, t2, hok⟩
        · exact absurd (hlen node hm) (by omega)
    · intro hres
      rcases hsearch with ⟨p, t2, hok⟩ | ⟨_, hnode⟩
      · rw [hok] at hres; cases hres
      · exact hnode
    · intro hres
      rcases hinsert with ⟨h2, t2, hok⟩ | ⟨_, hnode⟩
      · rw [hok] at hres; cases hres
      · exact hnode

/-- C12 at a concrete input: the trie of "abc" and "abd", and the key "Ab". -/
theorem C12_reads_inside_for_long_keys_witness :
    build [(key_abc, 1), (key_abd, 2)] = .ok state_abc_abd
    ∧ (∀ node ∈ state_abc_abd.heap, node.diff / 8 ≤ key_Ab.length)
    ∧ (∃ p t2, search_node state_abc_abd.heap state_abc_abd.root key_Ab
          comparison_tracker.zero = .ok (p, t2))
    ∧ (∃ h2 r2 t2, insert_node state_abc_abd.heap state_abc_abd.root key_Ab 3
          comparison_tracker.zero = .ok (h2, r2, t2)) :=
  ⟨by decide, by decide,
   (C12_reads_inside_for_long_keys [(key_abc, 1), (key_abd, 2)] state_abc_abd key_Ab 3
      comparison_tracker.zero (by decide)).1 (by decide)⟩

/-- C13 (search and insert are total, dict4.c): on a trie built by `insert_node`,
for every key, `search_node` and `insert_node` either return or stop at a read past
the key's storage; neither dereferences a `NULL` pointer, and the descent loop
never needs more iterations than the fuel of as many as the trie has nodes; the
nodes a search visits (the root and one per iteration) are at most as many as the
trie has nodes. -/
theorem C13_search_and_insert_total (kvs : List (Key × suburb_data)) (s : State)
    (key : Key) (value : suburb_data) (t : comparison_tracker) (hb : build kvs = .ok s) :
    ((∃ p t2, search_node s.heap s.root key t = .ok (p, t2))
      ∨ search_node s.heap s.root key t = .error .outOfBounds)
    ∧ ((∃ h2 r2 t2, insert_node s.heap s.root key value t = .ok (h2, r2, t2))
      ∨ insert_node s.heap s.root key value t = .error .outOfBounds)
    ∧ search_node s.heap s.root key t ≠ .error .nullDeref
    ∧ search_node s.heap s.root key t ≠ .error .outOfFuel
    ∧ insert_node s.heap s.root key value t ≠ .error .nullDeref
    ∧ insert_node s.heap s.root key value t ≠ .error .outOfFuel
    ∧ (∀ p t2, search_node s.heap s.root key t = .ok (p, t2) →
        ∃ path, search_path s.heap s.root key = .ok path ∧ path.length ≤ s.heap.length
          ∧ t2.node_accesses = t.node_accesses + path.length) := by
  have hsearch : (∃ p t2, search_node s.heap s.root key t = .ok (p, t2))
      ∨ search_node s.heap s.root key t = .error .outOfBounds := by
    rcases (build_inv kvs s hb).1 with ⟨_, hroot⟩ | ⟨hroot, hs⟩
    · rw [hroot]
      exact Or.inl ⟨none, t, rfl⟩
    · rw [hroot]
      rcases search_node_total s.heap key t hs with hok | ⟨herr, _⟩
      · exact Or.inl hok
      · exact Or.inr herr
  have hinsert : (∃ h2 r2 t2, insert_node s.heap s.root key value t = .ok (h2, r2, t2))
      ∨ insert_node s.heap s.root key value t = .error .outOfBounds := by
    rcases (build_inv kvs s hb).1 with ⟨_, hroot⟩ | ⟨hroot, hs⟩
    · rw [hroot]
      exact Or.inl ⟨_, _, _, insert_node_null _ _ _ _⟩
    · rw [hroot]
      rcases insert_node_total s.heap key value t hs with ⟨h2, t2, hok⟩ | ⟨herr, _⟩
      · exact Or.inl ⟨h2, some 0, t2, hok⟩
      · exact Or.inr herr
  refine ⟨hsearch, hinsert, ?_, ?_, ?_, ?_, ?_⟩
  · rcases hsearch with ⟨p, t2, hok⟩ | herr
    · rw [hok]; exact fun hcon => by cases hcon
    · rw [herr]; exact fun hcon => by cases hcon
  · rcases hsearch with ⟨p, t2, hok⟩ | herr
    · rw [hok]; exact fun hcon => by cases hcon
    · rw [herr]; exact fun hcon => by cases hcon
  · rcases hinsert with ⟨h2, r2, t2, hok⟩ | herr
    · rw [hok]; exact fun hcon => by cases hcon
    · rw [herr]; exact fun hcon => by cases hcon
  · rcases hinsert with ⟨h2, r2, t2, hok⟩ | herr
    · rw [hok]; exact fun hcon => by cases hcon
    · rw [herr]; exact fun hcon => by cases hcon
  · intro p t2 hres
    cases hr : s.root with
    | none =>
      rw [hr] at hres
      simp only [search_node] at hres
      cases hres
      exact ⟨[], rfl, by simp, by simp⟩
    | some r =>
      rw [hr] at hres
      obtain ⟨path, d, hpath, hlen, ht2⟩ := search_node_cost _ _ _ _ _ _ hres
      refine ⟨path, hpath, (search_path_increasing _ _ _ _ hpath).2.2.2, ?_⟩
      rw [ht2, hlen]
      simp [comparison_tracker.add]

/-- C13 at a concrete input: the trie of "abc" and "abd", and the key "Ab". -/
theorem C13_search_and_insert_total_witness :
    build [(key_abc, 1), (key_abd, 2)] = .ok state_abc_abd
    ∧ search_node state_abc_abd.heap state_abc_abd.root key_Ab comparison_tracker.zero
        ≠ .error .nullDeref
    ∧ insert_node state_abc_abd.heap state_abc_abd.root key_Ab 3 comparison_tracker.zero
        ≠ .error .outOfFuel :=
  ⟨by decide,
   (C13_search_and_insert_total [(key_abc, 1), (key_abd, 2)] state_abc_abd key_Ab 3
      comparison_tracker.zero (by decide)).2.2.1,
   (C13_search_and_insert_total [(key_abc, 1), (key_abd, 2)] state_abc_abd key_Ab 3
      comparison_tracker.zero (by decide)).2.2.2.2.2.1⟩

/-- C17 (diff monotonicity, dict4.c): on a trie built by `insert_node`, for every
query key, the nodes a `search_node` call visits (the root, then each node the
descent moves into) have strictly increasing diffs from each node to the next, hence
along the whole path, and no node occurs twice; every call that returns has such a
path, and the call returns whenever every stored diff addresses a byte of the key's
storage. -/
theorem C17_diffs_increase_along_search (kvs : List (Key × suburb_data)) (s : State)
    (key : Key) (t : comparison_tracker) (hb : build kvs = .ok s) :
    (∀ path, search_path s.heap s.root key = .ok path →
        path.Chain' (fun a b => diffAt s.heap a < diffAt s.heap b)
        ∧ path.Pairwise (fun a b => diffAt s.heap a < diffAt s.heap b)
        ∧ path.Nodup)
    ∧ (∀ p t2, search_node s.heap s.root key t = .ok (p, t2) →
        ∃ path, search_path s.heap s.root key = .ok path)
    ∧ ((∀ node ∈ s.heap, node.diff / 8 ≤ key.length) →
        ∃ p t2, search_node s.heap s.root key t = .ok (p, t2)) := by
  refine ⟨?_, ?_, ?_⟩
  · intro path hpath
    obtain ⟨h1, h2, h3, _⟩ := search_path_increasing _ _ _ _ hpath
    exact ⟨h1, h2, h3⟩
  · intro p t2 hres
    cases hr : s.root with
    | none => exact ⟨[], rfl⟩
    | some r =>
      rw [hr] at hres
      obtain ⟨path, _, hpath, _, _⟩ := search_node_cost _ _ _ _ _ _ hres
      exact ⟨path, hpath⟩
  · intro hlen
    rcases (build_inv kvs s hb).1 with ⟨_, hroot⟩ | ⟨hroot, hs⟩
    · rw [hroot]
      exact ⟨none, t, rfl⟩
    · rw [hroot]
      exact search_node_ok s.heap key t hs hlen

/-- C17 at a concrete input: the trie of "abc" and "abd", searched for "Ab": the
search visits the root (diff 0) and then the node of "abd" (diff 21). -/
theorem C17_diffs_increase_along_search_witness :
    build [(key_abc, 1), (key_abd, 2)] = .ok state_abc_abd
    ∧ search_path state_abc_abd.heap state_abc_abd.root key_Ab = .ok [0, 1]
    ∧ [0, 1].Pairwise (fun a b => diffAt state_abc_abd.heap a < diffAt state_abc_abd.heap b) :=
  ⟨by decide, by decide,
   ((C17_diffs_increase_along_search [(key_abc, 1), (key_abd, 2)] state_abc_abd key_Ab
      comparison_tracker.zero (by decide)).1 [0, 1] (by decide)).2.1⟩

end Dict4

namespace EditDistance

/-! ## Levenshtein distance -/

/-- Mathlib's Levenshtein distance with unit costs, on byte strings. -/
theorem lev_nil_left (ys : List Nat) :
    levenshtein Levenshtein.defaultCost ([] : List Nat) ys = ys.length := by
  induction ys with
  | nil => simp
  | cons y ys ih => simp [ih]; omega

theorem lev_nil_right (xs : List Nat) :
    levenshtein Levenshtein.defaultCost xs ([] : List Nat) = xs.length := by
  induction xs with
  | nil => simp
  | cons x xs ih => simp [ih]; omega

/-- Mathlib's distance is reached by an edit script. -/
theorem specEdits_lev (xs ys : List Nat) :
    SpecEdits xs ys (levenshtein Levenshtein.defaultCost xs ys) := by
  induction xs generalizing ys with
  | nil =>
    induction ys with
    | nil => simpa using SpecEdits.done
    | cons y ys ih =>
      rw [levenshtein_nil_cons]
      simp only [Levenshtein.defaultCost_insert]
      rw [Nat.add_comm]
      exact SpecEdits.insert y ih
  | cons x xs ihx =>
    induction ys with
    | nil =>
      rw [levenshtein_cons_nil]
      simp only [Levenshtein.defaultCost_delete]
      rw [Nat.add_comm]
      exact SpecEdits.delete x (ihx [])
    | cons y ys ihy =>
      rw [levenshtein_cons_cons]
      simp only [Levenshtein.defaultCost_delete, Levenshtein.defaultCost_insert,
        Levenshtein.defaultCost_substitute]
      rcases Nat.le_total (1 + levenshtein Levenshtein.defaultCost xs (y :: ys))
          (Min.min (1 + levenshtein Levenshtein.defaultCost (x :: xs) ys)
            ((if x = y then 0 else 1) + levenshtein Levenshtein.defaultCost xs ys)) with h | h
      · rw [Nat.min_eq_left h, Nat.add_comm]
        exact SpecEdits.delete x (ihx (y :: ys))
      · rw [Nat.min_eq_right h]
        rcases Nat.le_total (1 + levenshtein Levenshtein.defaultCost (x :: xs) ys)
            ((if x = y then 0 else 1) + levenshtein Levenshtein.defaultCost xs ys) with h2 | h2
        · rw [Nat.min_eq_left h2, Nat.add_comm]
          exact SpecEdits.insert y ihy
        · rw [Nat.min_eq_right h2]
          by_cases hxy : x = y
          · subst hxy
            simp only [if_true, Nat.zero_add]
            exact SpecEdits.keep x (ihx ys)
          · simp only [hxy, if_false]
            rw [Nat.add_comm]
            exact SpecEdits.substitute x y (ihx ys)

/-- No edit script is shorter than Mathlib's distance. -/
theorem lev_le_of_specEdits (xs ys : List Nat) (k : Nat) (h : SpecEdits xs ys k) :
    levenshtein Levenshtein.defaultCost xs ys ≤ k := by
  induction h with
  | done => simp
  | @keep a xs ys k _ ih =>
    rw [levenshtein_cons_cons]
    simp only [Levenshtein.defaultCost_substitute, if_true, Nat.zero_add]
    exact le_trans (min_le_of_right_le (min_le_right _ _)) ih
  | @substitute a b xs ys k _ ih =>
    rw [levenshtein_cons_cons]
    simp only [Levenshtein.defaultCost_substitute]
    refine le_trans (min_le_of_right_le (min_le_right _ _)) ?_
    split <;> omega
  | @delete a xs ys k _ ih =>
    cases ys with
    | nil =>
      rw [levenshtein_cons_nil]
      simp only [Levenshtein.defaultCost_delete]
      omega
    | cons y ys =>
      rw [levenshtein_cons_cons]
      simp only [Levenshtein.defaultCost_delete]
      refine le_trans (min_le_left _ _) ?_
      omega
  | @insert b xs ys k _ ih =>
    cases xs with
    | nil =>
      rw [levenshtein_nil_cons]
      simp only [Levenshtein.defaultCost_insert]
      omega
    | cons x xs =>
      rw [levenshtein_cons_cons]
      simp only [Levenshtein.defaultCost_insert]
      refine le_trans (min_le_of_right_le (min_le_left _ _)) ?_
      omega

/-- Mathlib's distance is the spec's Levenshtein distance. -/
theorem isLevenshteinDistance_lev (xs ys : List Nat) :
    IsLevenshteinDistance xs ys (levenshtein Levenshtein.defaultCost xs ys) :=
  ⟨specEdits_lev xs ys, fun k hk => lev_le_of_specEdits xs ys k hk⟩

end EditDistance

namespace EditDistance

/-! ## Edit scripts read from the right -/

theorem specEdits_snoc_keep (a : Nat) {xs ys : List Nat} {k : Nat} (h : SpecEdits xs ys k) :
    SpecEdits (xs ++ [a]) (ys ++ [a]) k := by
  induction h with
  | done => exact SpecEdits.keep a SpecEdits.done
  | keep c _ ih => exact SpecEdits.keep c ih
  | substitute c d _ ih => exact SpecEdits.substitute c d ih
  | delete c _ ih => exact SpecEdits.delete c ih
  | insert d _ ih => exact SpecEdits.insert d ih

theorem specEdits_snoc_substitute (a b : Nat) {xs ys : List Nat} {k : Nat}
    (h : SpecEdits xs ys k) : SpecEdits (xs ++ [a]) (ys ++ [b]) (k + 1) := by
  induction h with
  | done => exact SpecEdits.substitute a b SpecEdits.done
  | keep c _ ih => exact SpecEdits.keep c ih
  | substitute c d _ ih => exact SpecEdits.substitute c d ih
  | delete c _ ih => exact SpecEdits.delete c ih
  | insert d _ ih => exact SpecEdits.insert d ih

theorem specEdits_snoc_delete (a : Nat) {xs ys : List Nat} {k : Nat} (h : SpecEdits xs ys k) :
    SpecEdits (xs ++ [a]) ys (k + 1) := by
  induction h with
  | done => exact SpecEdits.delete a SpecEdits.done
  | keep c _ ih => exact SpecEdits.keep c ih
  | substitute c d _ ih => exact SpecEdits.substitute c d ih
  | delete c _ ih => exact SpecEdits.delete c ih
  | insert d _ ih => exact SpecEdits.insert d ih

theorem specEdits_snoc_insert (b : Nat) {xs ys : List Nat} {k : Nat} (h : SpecEdits xs ys k) :
    SpecEdits xs (ys ++ [b]) (k + 1) := by
  induction h with
  | done => exact SpecEdits.insert b SpecEdits.done
  | keep c _ ih => exact SpecEdits.keep c ih
  | substitute c d _ ih => exact SpecEdits.substitute c d ih
  | delete c _ ih => exact SpecEdits.delete c ih
  | insert d _ ih => exact SpecEdits.insert d ih

/-- An edit script read backwards is an edit script of the reversed strings. -/
theorem specEdits_reverse {xs ys : List Nat} {k : Nat} (h : SpecEdits xs ys k) :
    SpecEdits xs.reverse ys.reverse k := by
  induction h with
  | done => exact SpecEdits.done
  | keep c _ ih =>
    rw [List.reverse_cons, List.reverse_cons]
    exact specEdits_snoc_keep c ih
  | substitute c d _ ih =>
    rw [List.reverse_cons, List.reverse_cons]
    exact specEdits_snoc_substitute c d ih
  | delete c _ ih =>
    rw [List.reverse_cons]
    exact specEdits_snoc_delete c ih
  | insert d _ ih =>
    rw [List.reverse_cons]
    exact specEdits_snoc_insert d ih

theorem lev_reverse (xs ys : List Nat) :
    levenshtein Levenshtein.defaultCost xs.reverse ys.reverse
      = levenshtein Levenshtein.defaultCost xs ys := by
  apply le_antisymm
  · exact lev_le_of_specEdits _ _ _ (specEdits_reverse (specEdits_lev xs ys))
  · have h := specEdits_reverse (specEdits_lev xs.reverse ys.reverse)
    rw [List.reverse_reverse, List.reverse_reverse] at h
    exact lev_le_of_specEdits _ _ _ h

/-! ## Dropping one character changes the distance by at most one -/

theorem specEdits_tail_right {xs zs : List Nat} {k : Nat} (h : SpecEdits xs zs k) :
    ∀ (y : Nat) (ys : List Nat), zs = y :: ys → ∃ k2, k2 ≤ k + 1 ∧ SpecEdits xs ys k2 := by
  induction h with
  | done => intro y ys hz; cases hz
  | @keep c xs0 ys0 k0 h0 _ =>
    intro y ys hz
    cases hz
    exact ⟨k0 + 1, le_refl _, SpecEdits.delete c h0⟩
  | @substitute c d xs0 ys0 k0 h0 _ =>
    intro y ys hz
    cases hz
    exact ⟨k0 + 1, by omega, SpecEdits.delete c h0⟩
  | @delete c xs0 ys0 k0 _ ih =>
    intro y ys hz
    obtain ⟨k2, hk2, h2⟩ := ih y ys hz
    exact ⟨k2 + 1, by omega, SpecEdits.delete c h2⟩
  | @insert d xs0 ys0 k0 h0 _ =>
    intro y ys hz
    cases hz
    exact ⟨k0, by omega, h0⟩

theorem specEdits_tail_left {zs ys : List Nat} {k : Nat} (h : SpecEdits zs ys k) :
    ∀ (x : Nat) (xs : List Nat), zs = x :: xs → ∃ k2, k2 ≤ k + 1 ∧ SpecEdits xs ys k2 := by
  induction h with
  | done => intro x xs hz; cases hz
  | @keep c xs0 ys0 k0 h0 _ =>
    intro x xs hz
    cases hz
    exact ⟨k0 + 1, le_refl _, SpecEdits.insert c h0⟩
  | @substitute c d xs0 ys0 k0 h0 _ =>
    intro x xs hz
    cases hz
    exact ⟨k0 + 1, by omega, SpecEdits.insert d h0⟩
  | @delete c xs0 ys0 k0 h0 _ =>
    intro x xs hz
    cases hz
    exact ⟨k0, by omega, h0⟩
  | @insert d xs0 ys0 k0 _ ih =>
    intro x xs hz
    obtain ⟨k2, hk2, h2⟩ := ih x xs hz
    exact ⟨k2 + 1, by omega, SpecEdits.insert d h2⟩

theorem lev_tail_right (xs ys : List Nat) (y : Nat) :
    levenshtein Levenshtein.defaultCost xs ys
      ≤ levenshtein Levenshtein.defaultCost xs (y :: ys) + 1 := by
  obtain ⟨k2, hk2, h2⟩ := specEdits_tail_right (specEdits_lev xs (y :: ys)) y ys rfl
  exact le_trans (lev_le_of_specEdits _ _ _ h2) hk2

theorem lev_tail_left (xs ys : List Nat) (x : Nat) :
    levenshtein Levenshtein.defaultCost xs ys
      ≤ levenshtein Levenshtein.defaultCost (x :: xs) ys + 1 := by
  obtain ⟨k2, hk2, h2⟩ := specEdits_tail_left (specEdits_lev (x :: xs) ys) x xs rfl
  exact le_trans (lev_le_of_specEdits _ _ _ h2) hk2

/-- Equal first characters cost nothing. -/
theorem lev_cons_same (a : Nat) (xs ys : List Nat) :
    levenshtein Levenshtein.defaultCost (a :: xs) (a :: ys)
      = levenshtein Levenshtein.defaultCost xs ys := by
  rw [levenshtein_cons_cons]
  simp only [Levenshtein.defaultCost_delete, Levenshtein.defaultCost_insert,
    Levenshtein.defaultCost_substitute, if_true, Nat.zero_add]
  have h1 := lev_tail_right xs ys a
  have h2 := lev_tail_left xs ys a
  omega

/-- Different first characters cost one operation more than the best of the three
shorter problems. -/
theorem lev_cons_ne (a b : Nat) (hab : a ≠ b) (xs ys : List Nat) :
    levenshtein Levenshtein.defaultCost (a :: xs) (b :: ys)
      = 1 + Min.min (levenshtein Levenshtein.defaultCost xs (b :: ys))
              (Min.min (levenshtein Levenshtein.defaultCost (a :: xs) ys)
                (levenshtein Levenshtein.defaultCost xs ys)) := by
  rw [levenshtein_cons_cons]
  simp only [Levenshtein.defaultCost_delete, Levenshtein.defaultCost_insert,
    Levenshtein.defaultCost_substitute, hab, if_false]
  omega

/-- The same two facts for the last characters, which is how the table is filled. -/
theorem lev_snoc_same (a : Nat) (xs ys : List Nat) :
    levenshtein Levenshtein.defaultCost (xs ++ [a]) (ys ++ [a])
      = levenshtein Levenshtein.defaultCost xs ys := by
  rw [← lev_reverse (xs ++ [a]), List.reverse_append, List.reverse_append]
  simp only [List.reverse_singleton, List.singleton_append]
  rw [lev_cons_same, lev_reverse]

theorem lev_snoc_ne (a b : Nat) (hab : a ≠ b) (xs ys : List Nat) :
    levenshtein Levenshtein.defaultCost (xs ++ [a]) (ys ++ [b])
      = 1 + Min.min (levenshtein Levenshtein.defaultCost xs (ys ++ [b]))
              (Min.min (levenshtein Levenshtein.defaultCost (xs ++ [a]) ys)
                (levenshtein Levenshtein.defaultCost xs ys)) := by
  have e1 : levenshtein Levenshtein.defaultCost xs (ys ++ [b])
      = levenshtein Levenshtein.defaultCost xs.reverse (b :: ys.reverse) := by
    rw [← lev_reverse xs (ys ++ [b]), List.reverse_append]
    rfl
  have e2 : levenshtein Levenshtein.defaultCost (xs ++ [a]) ys
      = levenshtein Levenshtein.defaultCost (a :: xs.reverse) ys.reverse := by
    rw [← lev_reverse (xs ++ [a]) ys, List.reverse_append]
    rfl
  rw [e1, e2, ← lev_reverse xs ys, ← lev_reverse (xs ++ [a]), List.reverse_append,
    List.reverse_append]
  simp only [List.reverse_singleton, List.singleton_append]
  exact lev_cons_ne a b hab _ _

end EditDistance

namespace EditDistance

/-! ## The table holds the distances of the prefixes -/

theorem min_eq (a b c : Int) : EditDistance.min a b c = Min.min a (Min.min b c) := by
  simp only [EditDistance.min]
  split <;> split <;> omega

theorem prefixDistance_zero_left (s1 s2 : List Nat) (b : Nat) (hb : b ≤ s2.length) :
    prefixDistance s1 s2 0 b = b := by
  simp only [prefixDistance, List.take_zero, lev_nil_left, List.length_take]
  omega

theorem prefixDistance_zero_right (s1 s2 : List Nat) (a : Nat) (ha : a ≤ s1.length) :
    prefixDistance s1 s2 a 0 = a := by
  simp only [prefixDistance, List.take_zero, lev_nil_right, List.length_take]
  omega

theorem take_succ_getElem (s : List Nat) (i : Nat) (hi : i < s.length) :
    s.take (i + 1) = s.take i ++ [s[i]] := by
  rw [List.take_succ, List.getElem?_eq_getElem hi]
  rfl

theorem prefixDistance_succ_same (s1 s2 : List Nat) (i j : Nat) (hi : i < s1.length)
    (hj : j < s2.length) (heq : s1[i] = s2[j]) :
    prefixDistance s1 s2 (i + 1) (j + 1) = prefixDistance s1 s2 i j := by
  simp only [prefixDistance, take_succ_getElem s1 i hi, take_succ_getElem s2 j hj]
  rw [heq]
  exact lev_snoc_same _ _ _

theorem prefixDistance_succ_ne (s1 s2 : List Nat) (i j : Nat) (hi : i < s1.length)
    (hj : j < s2.length) (hne : s1[i] ≠ s2[j]) :
    prefixDistance s1 s2 (i + 1) (j + 1)
      = 1 + Min.min (prefixDistance s1 s2 i (j + 1))
              (Min.min (prefixDistance s1 s2 (i + 1) j) (prefixDistance s1 s2 i j)) := by
  simp only [prefixDistance, take_succ_getElem s1 i hi, take_succ_getElem s2 j hj]
  exact lev_snoc_ne _ _ hne _ _

theorem charAt_some (s : List Nat) (i : Nat) (hwf : Dict4.WellFormedKey s)
    (hi : i < s.length) : charAt (some s) i = .ok s[i] := by
  simp only [charAt, Dict4.readByte, if_pos hi]
  rw [List.getD_eq_getElem _ _ hi, Nat.mod_eq_of_lt (hwf _ (List.getElem_mem hi)).2]

theorem Filled.set_next (s1 s2 : List Nat) (m : Nat) (dp : Table) (i j : Nat) (v : Int)
    (hf : Filled s1 s2 m dp i j) (hv : v = (prefixDistance s1 s2 i j : Int)) :
    Filled s1 s2 m (dp.set i j v) i (j + 1) := by
  intro a b hb hab
  simp only [Table.set]
  by_cases hij : a = i ∧ b = j
  · rw [if_pos hij, hv, hij.1, hij.2]
  · rw [if_neg hij]
    apply hf a b hb
    rcases hab with h | ⟨h1, h2⟩
    · exact Or.inl h
    · right
      refine ⟨h1, ?_⟩
      by_contra hcon
      exact hij ⟨h1, by omega⟩

/-- Writing one cell: the loop body succeeds and extends the filled part of the
table by the cell `dp[i][j]`. -/
theorem cell_filled (s1 s2 : List Nat) (n m : Nat) (hw1 : Dict4.WellFormedKey s1)
    (hw2 : Dict4.WellFormedKey s2) (hn : n ≤ s1.length) (hm : m ≤ s2.length)
    (dp : Table) (i j : Nat) (hi : i ≤ n) (hj : j ≤ m) (hf : Filled s1 s2 m dp i j) :
    ∃ dp2, cell (some s1) (some s2) i j dp = .ok dp2 ∧ Filled s1 s2 m dp2 i (j + 1) := by
  simp only [cell]
  by_cases hi0 : i = 0
  · rw [if_pos hi0]
    refine ⟨_, rfl, Filled.set_next _ _ _ _ _ _ _ hf ?_⟩
    rw [hi0, prefixDistance_zero_left s1 s2 j (by omega)]
  · rw [if_neg hi0]
    by_cases hj0 : j = 0
    · rw [if_pos hj0]
      refine ⟨_, rfl, Filled.set_next _ _ _ _ _ _ _ hf ?_⟩
      rw [hj0, prefixDistance_zero_right s1 s2 i (by omega)]
    · rw [if_neg hj0]
      obtain ⟨i0, rfl⟩ : ∃ i0, i = i0 + 1 := ⟨i - 1, by omega⟩
      obtain ⟨j0, rfl⟩ : ∃ j0, j = j0 + 1 := ⟨j - 1, by omega⟩
      have hi1 : i0 < s1.length := by omega
      have hj1 : j0 < s2.length := by omega
      simp only [Nat.add_sub_cancel, charAt_some s1 i0 hw1 hi1, charAt_some s2 j0 hw2 hj1]
      have hdiag : dp i0 j0 = (prefixDistance s1 s2 i0 j0 : Int) :=
        hf i0 j0 (by omega) (Or.inl (by omega))
      have hup : dp i0 (j0 + 1) = (prefixDistance s1 s2 i0 (j0 + 1) : Int) :=
        hf i0 (j0 + 1) hj (Or.inl (by omega))
      have hleft : dp (i0 + 1) j0 = (prefixDistance s1 s2 (i0 + 1) j0 : Int) :=
        hf (i0 + 1) j0 (by omega) (Or.inr ⟨rfl, by omega⟩)
      by_cases heq : s1[i0] = s2[j0]
      · rw [if_pos heq]
        refine ⟨_, rfl, Filled.set_next _ _ _ _ _ _ _ hf ?_⟩
        rw [hdiag, prefixDistance_succ_same s1 s2 i0 j0 hi1 hj1 heq]
      · rw [if_neg heq]
        refine ⟨_, rfl, Filled.set_next _ _ _ _ _ _ _ hf ?_⟩
        rw [hdiag, hup, hleft, prefixDistance_succ_ne s1 s2 i0 j0 hi1 hj1 heq, min_eq]
        push_cast
        rfl

/-- The inner loop from column `j` on fills row `i` to its end. -/
theorem inner_loop_filled (s1 s2 : List Nat) (n m : Nat) (hw1 : Dict4.WellFormedKey s1)
    (hw2 : Dict4.WellFormedKey s2) (hn : n ≤ s1.length) (hm : m ≤ s2.length)
    (i : Nat) (hi : i ≤ n) :
    ∀ (fuel j : Nat) (dp : Table), j ≤ m + 1 → m + 1 - j < fuel → Filled s1 s2 m dp i j →
      ∃ dp2, inner_loop (some s1) (some s2) m i fuel j dp = .ok dp2
        ∧ Filled s1 s2 m dp2 i (m + 1) := by
  intro fuel
  induction fuel with
  | zero => intro j dp _ hfuel; omega
  | succ k ih =>
    intro j dp hj hfuel hf
    simp only [inner_loop]
    by_cases hjm : j ≤ m
    · rw [if_pos hjm]
      obtain ⟨dp1, hcell, hf1⟩ := cell_filled s1 s2 n m hw1 hw2 hn hm dp i j hi hjm hf
      rw [hcell]
      exact ih (j + 1) dp1 (by omega) (by omega) hf1
    · rw [if_neg hjm]
      have hje : j = m + 1 := by omega
      subst hje
      exact ⟨dp, rfl, hf⟩

/-- The outer loop from row `i` on fills the table to its end. -/
theorem outer_loop_filled (s1 s2 : List Nat) (n m : Nat) (hw1 : Dict4.WellFormedKey s1)
    (hw2 : Dict4.WellFormedKey s2) (hn : n ≤ s1.length) (hm : m ≤ s2.length) :
    ∀ (fuel i : Nat) (dp : Table), i ≤ n + 1 → n + 1 - i < fuel → Filled s1 s2 m dp i 0 →
      ∃ dp2, outer_loop (some s1) (some s2) n m fuel i dp = .ok dp2
        ∧ Filled s1 s2 m dp2 (n + 1) 0 := by
  intro fuel
  induction fuel with
  | zero => intro i dp _ hfuel; omega
  | succ k ih =>
    intro i dp hi hfuel hf
    simp only [outer_loop]
    by_cases hin : i ≤ n
    · rw [if_pos hin]
      obtain ⟨dp1, hinner, hf1⟩ :=
        inner_loop_filled s1 s2 n m hw1 hw2 hn hm i hin (m + 2) 0 dp (by omega) (by omega) hf
      rw [hinner]
      apply ih (i + 1) dp1 (by omega) (by omega)
      intro a b hb hab
      apply hf1 a b hb
      rcases hab with h | ⟨_, h⟩
      · rcases Nat.lt_or_ge a i with h1 | h1
        · exact Or.inl h1
        · exact Or.inr ⟨by omega, by omega⟩
      · omega
    · rw [if_neg hin]
      have hie : i = n + 1 := by omega
      subst hie
      exact ⟨dp, rfl, hf⟩

/-- C15 (edit distance): for C strings `str1`, `str2` and lengths `n ≤ len(str1)`,
`m ≤ len(str2)`, whatever the array `dp` holds at entry, `editDistance(str1, str2, n,
m)` returns the Levenshtein distance between the first `n` characters of `str1` and
the first `m` characters of `str2`: the minimum number of single-character
insertions, deletions and substitutions, which is Mathlib's `levenshtein` with unit
costs. -/
theorem C15_editDistance_is_levenshtein (str1 str2 : List Nat) (n m : Nat) (dp0 : Table)
    (hw1 : Dict4.WellFormedKey str1) (hw2 : Dict4.WellFormedKey str2)
    (hn : n ≤ str1.length) (hm : m ≤ str2.length) :
    ∃ d : Nat, editDistance (some str1) (some str2) n m dp0 = .ok (d : Int)
      ∧ IsLevenshteinDistance (str1.take n) (str2.take m) d
      ∧ d = levenshtein Levenshtein.defaultCost (str1.take n) (str2.take m) := by
  refine ⟨prefixDistance str1 str2 n m, ?_, isLevenshteinDistance_lev _ _, rfl⟩
  have hassert : (m : Int) ≥ 0 ∧ (n : Int) ≥ 0
      ∧ ((some str1 : CString).isSome ∨ (m : Int) = 0)
      ∧ ((some str2 : CString).isSome ∨ (n : Int) = 0) :=
    ⟨by omega, by omega, Or.inl rfl, Or.inl rfl⟩
  obtain ⟨dp, hloop, hf⟩ :=
    outer_loop_filled str1 str2 n m hw1 hw2 hn hm (n + 2) 0 dp0 (by omega) (by omega)
      (by intro a b _ hab; omega)
  simp only [editDistance, if_pos hassert, Int.toNat_ofNat, hloop]
  rw [hf n m (le_refl _) (Or.inl (by omega))]

/-- C15 at a concrete input: "kitten" and "sitting", whole strings. -/
theorem C15_editDistance_is_levenshtein_witness :
    Dict4.WellFormedKey str_kitten ∧ Dict4.WellFormedKey str_sitting
    ∧ 6 ≤ str_kitten.length ∧ 7 ≤ str_sitting.length
    ∧ editDistance (some str_kitten) (some str_sitting) 6 7 (fun _ _ => 0) = .ok 3
    ∧ ∃ d : Nat, editDistance (some str_kitten) (some str_sitting) (6 : Nat) (7 : Nat)
          (fun _ _ => 0) = .ok (d : Int)
        ∧ IsLevenshteinDistance (str_kitten.take 6) (str_sitting.take 7) d
        ∧ d = levenshtein Levenshtein.defaultCost (str_kitten.take 6) (str_sitting.take 7) :=
  ⟨by decide, by decide, by decide, by decide, by decide,
   C15_editDistance_is_levenshtein str_kitten str_sitting 6 7 (fun _ _ => 0)
     (by decide) (by decide) (by decide) (by decide)⟩

end EditDistance

namespace EditDistance

/-! ## `NULL` strings and the entry assertion -/

theorem charAt_some_cases (s : List Nat) (i : Nat) :
    (∃ c, charAt (some s) i = .ok c) ∨ charAt (some s) i = .error .outOfBounds := by
  simp only [charAt, Dict4.readByte]
  by_cases h1 : i < s.length
  · rw [if_pos h1]
    exact Or.inl ⟨_, rfl⟩
  · rw [if_neg h1]
    by_cases h2 : i = s.length
    · rw [if_pos h2]
      exact Or.inl ⟨_, rfl⟩
    · rw [if_neg h2]
      exact Or.inr rfl

/-- A cell off the first row and column reads both strings; when both are there,
the loop body returns or stops at a read past a string, never at `NULL`. -/
theorem cell_safe (str1 str2 : CString) (i j : Nat) (dp : Table)
    (hs : i ≠ 0 → j ≠ 0 → str1.isSome ∧ str2.isSome) :
    (∃ dp2, cell str1 str2 i j dp = .ok dp2) ∨ cell str1 str2 i j dp = .error .outOfBounds := by
  simp only [cell]
  by_cases hi0 : i = 0
  · rw [if_pos hi0]
    exact Or.inl ⟨_, rfl⟩
  · rw [if_neg hi0]
    by_cases hj0 : j = 0
    · rw [if_pos hj0]
      exact Or.inl ⟨_, rfl⟩
    · rw [if_neg hj0]
      obtain ⟨hs1, hs2⟩ := hs hi0 hj0
      obtain ⟨s1, rfl⟩ := Option.isSome_iff_exists.mp hs1
      obtain ⟨s2, rfl⟩ := Option.isSome_iff_exists.mp hs2
      rcases charAt_some_cases s1 (i - 1) with ⟨c1, hc1⟩ | hc1
      · rw [hc1]
        dsimp only
        rcases charAt_some_cases s2 (j - 1) with ⟨c2, hc2⟩ | hc2
        · rw [hc2]
          dsimp only
          left
          split
          · exact ⟨_, rfl⟩
          · exact ⟨_, rfl⟩
        · rw [hc2]
          exact Or.inr rfl
      · rw [hc1]
        exact Or.inr rfl

theorem inner_loop_safe (str1 str2 : CString) (m i : Nat)
    (hs : ∀ j, j ≤ m → i ≠ 0 → j ≠ 0 → str1.isSome ∧ str2.isSome) :
    ∀ (fuel j : Nat) (dp : Table), m + 1 - j < fuel →
      (∃ dp2, inner_loop str1 str2 m i fuel j dp = .ok dp2)
      ∨ inner_loop str1 str2 m i fuel j dp = .error .outOfBounds := by
  intro fuel
  induction fuel with
  | zero => intro j dp hfuel; omega
  | succ k ih =>
    intro j dp hfuel
    simp only [inner_loop]
    by_cases hjm : j ≤ m
    · rw [if_pos hjm]
      rcases cell_safe str1 str2 i j dp (hs j hjm) with ⟨dp1, hc⟩ | hc
      · rw [hc]
        exact ih (j + 1) dp1 (by omega)
      · rw [hc]
        exact Or.inr rfl
    · rw [if_neg hjm]
      exact Or.inl ⟨dp, rfl⟩

theorem outer_loop_safe (str1 str2 : CString) (n m : Nat)
    (hs : ∀ i j, i ≤ n → j ≤ m → i ≠ 0 → j ≠ 0 → str1.isSome ∧ str2.isSome) :
    ∀ (fuel i : Nat) (dp : Table), n + 1 - i < fuel →
      (∃ dp2, outer_loop str1 str2 n m fuel i dp = .ok dp2)
      ∨ outer_loop str1 str2 n m fuel i dp = .error .outOfBounds := by
  intro fuel
  induction fuel with
  | zero => intro i dp hfuel; omega
  | succ k ih =>
    intro i dp hfuel
    simp only [outer_loop]
    by_cases hin : i ≤ n
    · rw [if_pos hin]
      rcases inner_loop_safe str1 str2 m i (fun j hj => hs i j hin hj) (m + 2) 0 dp (by omega)
        with ⟨dp1, hc⟩ | hc
      · rw [hc]
        exact ih (i + 1) dp1 (by omega)
      · rw [hc]
        exact Or.inr rfl
    · rw [if_neg hin]
      exact Or.inl ⟨dp, rfl⟩

/-- A cell of the first row or column is written without reading either string. -/
theorem cell_border (str1 str2 : CString) (i j : Nat) (dp : Table) (hij : i = 0 ∨ j = 0) :
    cell str1 str2 i j dp
      = .ok (dp.set i j (if i = 0 then (j : Int) else (i : Int))) := by
  simp only [cell]
  by_cases hi0 : i = 0
  · rw [if_pos hi0, if_pos hi0]
  · rw [if_neg hi0, if_neg hi0]
    have hj0 : j = 0 := by
      rcases hij with h | h
      · exact absurd h hi0
      · exact h
    rw [if_pos hj0]

theorem borderFilled_set_next (m : Nat) (dp : Table) (i j : Nat)
    (hf : BorderFilled m dp i j) :
    BorderFilled m (dp.set i j (if i = 0 then (j : Int) else (i : Int))) i (j + 1) := by
  intro a b hb hab
  simp only [Table.set]
  by_cases hij : a = i ∧ b = j
  · rw [if_pos hij, hij.1, hij.2]
  · rw [if_neg hij]
    apply hf a b hb
    rcases hab with h | ⟨h1, h2⟩
    · exact Or.inl h
    · right
      refine ⟨h1, ?_⟩
      by_contra hcon
      exact hij ⟨h1, by omega⟩

theorem inner_loop_border (str1 str2 : CString) (n m i : Nat) (hnm : n = 0 ∨ m = 0)
    (hi : i ≤ n) :
    ∀ (fuel j : Nat) (dp : Table), j ≤ m + 1 → m + 1 - j < fuel → BorderFilled m dp i j →
      ∃ dp2, inner_loop str1 str2 m i fuel j dp = .ok dp2 ∧ BorderFilled m dp2 i (m + 1) := by
  intro fuel
  induction fuel with
  | zero => intro j dp _ hfuel; omega
  | succ k ih =>
    intro j dp hj hfuel hf
    simp only [inner_loop]
    by_cases hjm : j ≤ m
    · rw [if_pos hjm, cell_border str1 str2 i j dp (by omega)]
      exact ih (j + 1) _ (by omega) (by omega) (borderFilled_set_next m dp i j hf)
    · rw [if_neg hjm]
      have hje : j = m + 1 := by omega
      subst hje
      exact ⟨dp, rfl, hf⟩

theorem outer_loop_border (str1 str2 : CString) (n m : Nat) (hnm : n = 0 ∨ m = 0) :
    ∀ (fuel i : Nat) (dp : Table), i ≤ n + 1 → n + 1 - i < fuel → BorderFilled m dp i 0 →
      ∃ dp2, outer_loop str1 str2 n m fuel i dp = .ok dp2
        ∧ BorderFilled m dp2 (n + 1) 0 := by
  intro fuel
  induction fuel with
  | zero => intro i dp _ hfuel; omega
  | succ k ih =>
    intro i dp hi hfuel hf
    simp only [outer_loop]
    by_cases hin : i ≤ n
    · rw [if_pos hin]
      obtain ⟨dp1, hinner, hf1⟩ :=
        inner_loop_border str1 str2 n m i hnm hin (m + 2) 0 dp (by omega) (by omega) hf
      rw [hinner]
      apply ih (i + 1) dp1 (by omega) (by omega)
      intro a b hb hab
      apply hf1 a b hb
      rcases hab with h | ⟨_, h⟩
      · rcases Nat.lt_or_ge a i with h1 | h1
        · exact Or.inl h1
        · exact Or.inr ⟨by omega, by omega⟩
      · omega
    · rw [if_neg hin]
      have hie : i = n + 1 := by omega
      subst hie
      exact ⟨dp, rfl, hf⟩

/-- With one of the lengths 0 and the assertion passed, `editDistance` returns the
other length, whatever the strings are. -/
theorem editDistance_border (str1 str2 : CString) (n m : Int) (dp0 : Table)
    (hm : m ≥ 0) (hn : n ≥ 0) (h1 : str1.isSome ∨ m = 0) (h2 : str2.isSome ∨ n = 0)
    (hnm : n = 0 ∨ m = 0) :
    editDistance str1 str2 n m dp0 = .ok (if n = 0 then m else n) := by
  have hnm2 : n.toNat = 0 ∨ m.toNat = 0 := by omega
  obtain ⟨dp, hloop, hf⟩ :=
    outer_loop_border str1 str2 n.toNat m.toNat hnm2 (n.toNat + 2) 0 dp0 (by omega) (by omega)
      (by intro a b _ hab; omega)
  have hassert : m ≥ 0 ∧ n ≥ 0 ∧ (str1.isSome ∨ m = 0) ∧ (str2.isSome ∨ n = 0) :=
    ⟨hm, hn, h1, h2⟩
  simp only [editDistance, if_pos hassert, hloop]
  rw [hf n.toNat m.toNat (le_refl _) (Or.inl (by omega))]
  by_cases hn0 : n = 0
  · subst hn0
    simp only [Int.toNat_zero, if_true]
    rw [Int.toNat_of_nonneg hm]
  · have hnt : n.toNat ≠ 0 := by omega
    rw [if_neg hnt, if_neg hn0, Int.toNat_of_nonneg hn]

/-- C21 (the entry assertion gives null-safety): whenever `m >= 0`, `n >= 0`,
(`str1` is not `NULL` or `m = 0`) and (`str2` is not `NULL` or `n = 0`), the
assertion passes and `editDistance` returns, or stops at a read past the end of a
string that is there: it never reads `str1[i-1]` or `str2[j-1]` through a `NULL`
pointer.  In that case the result is `n` when `m = 0` and `m` when `n = 0`. -/
theorem C21_assertion_gives_null_safety (str1 str2 : CString) (n m : Int) (dp0 : Table)
    (hm : m ≥ 0) (hn : n ≥ 0) (h1 : str1.isSome ∨ m = 0) (h2 : str2.isSome ∨ n = 0) :
    ((∃ d, editDistance str1 str2 n m dp0 = .ok d)
      ∨ editDistance str1 str2 n m dp0 = .error .outOfBounds)
    ∧ editDistance str1 str2 n m dp0 ≠ .error .nullDeref
    ∧ editDistance str1 str2 n m dp0 ≠ .error .assertFail
    ∧ (m = 0 → editDistance str1 str2 n m dp0 = .ok n)
    ∧ (n = 0 → editDistance str1 str2 n m dp0 = .ok m) := by
  have hsafe : (∃ d, editDistance str1 str2 n m dp0 = .ok d)
      ∨ editDistance str1 str2 n m dp0 = .error .outOfBounds := by
    have hassert : m ≥ 0 ∧ n ≥ 0 ∧ (str1.isSome ∨ m = 0) ∧ (str2.isSome ∨ n = 0) :=
      ⟨hm, hn, h1, h2⟩
    have hs : ∀ i j, i ≤ n.toNat → j ≤ m.toNat → i ≠ 0 → j ≠ 0 →
        str1.isSome ∧ str2.isSome := by
      intro i j hi hj hi0 hj0
      constructor
      · rcases h1 with h | h
        · exact h
        · omega
      · rcases h2 with h | h
        · exact h
        · omega
    simp only [editDistance, if_pos hassert]
    rcases outer_loop_safe str1 str2 n.toNat m.toNat hs (n.toNat + 2) 0 dp0 (by omega)
      with ⟨dp, hloop⟩ | hloop
    · rw [hloop]
      exact Or.inl ⟨_, rfl⟩
    · rw [hloop]
      exact Or.inr rfl
  refine ⟨hsafe, ?_, ?_, ?_, ?_⟩
  · rcases hsafe with ⟨d, hok⟩ | herr
    · rw [hok]; exact fun hcon => by cases hcon
    · rw [herr]; exact fun hcon => by cases hcon
  · rcases hsafe with ⟨d, hok⟩ | herr
    · rw [hok]; exact fun hcon => by cases hcon
    · rw [herr]; exact fun hcon => by cases hcon
  · intro hm0
    rw [editDistance_border str1 str2 n m dp0 hm hn h1 h2 (Or.inr hm0)]
    by_cases hn0 : n = 0
    · rw [if_pos hn0, hm0, hn0]
    · rw [if_neg hn0]
  · intro hn0
    rw [editDistance_border str1 str2 n m dp0 hm hn h1 h2 (Or.inl hn0), if_pos hn0]

/-- C21 at a concrete input: `str1` is `NULL`, `str2` is "kitten", `n = 3`, `m = 0`:
the assertion passes, rows 1 to 3 are written without reading `str1`, and the result
is 3. -/
theorem C21_assertion_gives_null_safety_witness :
    (0 : Int) ≥ 0 ∧ (3 : Int) ≥ 0
    ∧ ((none : CString).isSome ∨ (0 : Int) = 0)
    ∧ ((some str_kitten : CString).isSome ∨ (3 : Int) = 0)
    ∧ editDistance none (some str_kitten) 3 0 (fun _ _ => 0) = .ok 3 :=
  ⟨by decide, by decide, by decide, by decide,
   (C21_assertion_gives_null_safety none (some str_kitten) 3 0 (fun _ _ => 0)
      (by decide) (by decide) (by decide) (by decide)).2.2.2.1 rfl⟩

end EditDistance

/-! ## The query key in the driver's buffer -/

namespace Dict4

theorem inBuffer_readByte_nil (s : Key) (byte : Nat) :
    InBuffer.readByte s [] byte = readByte s byte := by
  simp only [InBuffer.readByte, readByte, List.length_nil, Nat.not_lt_zero, if_false]

theorem inBuffer_getBit_nil (s : Key) (i : Nat) (t : comparison_tracker) :
    InBuffer.getBit s [] i t = getBit s i t := by
  simp only [InBuffer.getBit, getBit, inBuffer_readByte_nil]

theorem inBuffer_descend_nil (h : Heap) (key : Key) :
    ∀ (fuel parent : Nat) (child : Ptr) (t : comparison_tracker),
      InBuffer.descend h key [] fuel parent child t = descend h key fuel parent child t := by
  intro fuel
  induction fuel with
  | zero => intro parent child t; rfl
  | succ n ih =>
    intro parent child t
    simp only [InBuffer.descend, descend, inBuffer_getBit_nil, ih]

/-- With nothing after the key's terminator, the search on a key in a buffer is
`search_node` on a key of its own size. -/
theorem inBuffer_search_node_nil (h : Heap) (root : Ptr) (key : Key)
    (t : comparison_tracker) :
    InBuffer.search_node h root key [] t = search_node h root key t := by
  cases root with
  | none => rfl
  | some r => simp only [InBuffer.search_node, search_node, inBuffer_descend_nil]

/-- A bit whose byte is inside the buffer is read without a fault. -/
theorem inBuffer_getBit_ok (s : Key) (rest : List Nat) (i : Nat) (t : comparison_tracker)
    (hin : i / 8 ≤ s.length + rest.length) :
    ∃ bit, InBuffer.getBit s rest i t
      = .ok (bit, { t with bit_comparisons := t.bit_comparisons + 1 }) := by
  have hb : ∃ b, InBuffer.readByte s rest (i / BITS_PER_BYTE) = .ok b := by
    simp only [InBuffer.readByte, BITS_PER_BYTE]
    by_cases h1 : i / 8 < s.length
    · rw [if_pos h1]
      exact ⟨_, rfl⟩
    · rw [if_neg h1]
      by_cases h2 : i / 8 = s.length
      · rw [if_pos h2]
        exact ⟨_, rfl⟩
      · rw [if_neg h2, if_pos (by omega)]
        exact ⟨_, rfl⟩
  obtain ⟨b, hb⟩ := hb
  simp only [InBuffer.getBit, hb]
  exact ⟨_, rfl⟩

/-- On a heap of the shape `insert_node` builds, the descent on a key in a buffer
ends at an allocated child when every stored diff addresses a byte of the buffer. -/
theorem inBuffer_descend_ok (h : Heap) (key : Key) (rest : List Nat) (hs : Shaped h)
    (hlen : ∀ node ∈ h, node.diff / 8 ≤ key.length + rest.length) :
    ∀ (fuel parent ca : Nat) (t : comparison_tracker) (p : patricia_node),
      h[parent]? = some p → ca < h.length →
      h.countP (fun n => decide (p.diff < n.diff)) < fuel →
      ∃ parent2 ca2 t2,
        InBuffer.descend h key rest fuel parent (some ca) t = .ok (parent2, some ca2, t2)
        ∧ ca2 < h.length := by
  intro fuel
  induction fuel with
  | zero => intro parent ca t p _ _ hf; omega
  | succ n ih =>
    intro parent ca t p hp hca hf
    obtain ⟨c, hc⟩ : ∃ c, h[ca]? = some c := ⟨h[ca], List.getElem?_eq_getElem hca⟩
    have hcm : c ∈ h := List.mem_iff_getElem?.mpr ⟨ca, hc⟩
    simp only [InBuffer.descend, (deref_some_iff h parent p).mpr hp,
      (deref_some_iff h ca c).mpr hc]
    by_cases hlt : p.diff < c.diff
    · obtain ⟨bit, hg⟩ := inBuffer_getBit_ok key rest c.diff
        { t with node_accesses := t.node_accesses + 1 } (hlen c hcm)
      rw [if_pos hlt, hg]
      dsimp only
      obtain ⟨hzero, ⟨l, hl, hll⟩, hr⟩ := hs.2 ca c hc
      have hcapos : 0 < ca := by
        rcases Nat.eq_zero_or_pos ca with h0 | h0
        · have := hzero.mpr h0
          omega
        · exact h0
      obtain ⟨r, hr, hrl⟩ := hr hcapos
      have hfuel : h.countP (fun n => decide (c.diff < n.diff)) < n := by
        have := countP_diff_lt h p.diff c.diff hlt c hcm rfl
        omega
      split
      · rw [hl]
        exact ih ca l _ c hc hll hfuel
      · rw [hr]
        exact ih ca r _ c hc hrl hfuel
    · rw [if_neg hlt]
      exact ⟨parent, ca, t, rfl, hca⟩

/-- The search on a key in a buffer returns the child the descent ends at if its key
is the query key, and `NULL` if not. -/
theorem inBuffer_search_node_ok (h : Heap) (key : Key) (rest : List Nat)
    (t : comparison_tracker) (hs : Shaped h)
    (hlen : ∀ node ∈ h, node.diff / 8 ≤ key.length + rest.length) :
    ∃ (ca : Nat) (c : patricia_node) (t2 : comparison_tracker), h[ca]? = some c
      ∧ InBuffer.search_node h (some 0) key rest t
          = .ok (if c.key = key then some ca else none, t2) := by
  have hpos : 0 < h.length := hs.1
  obtain ⟨n0, hn0⟩ : ∃ n0, h[0]? = some n0 := ⟨h[0], List.getElem?_eq_getElem hpos⟩
  obtain ⟨_, ⟨l, hl, hll⟩, _⟩ := hs.2 0 n0 hn0
  have hn0m : n0 ∈ h := List.mem_iff_getElem?.mpr ⟨0, hn0⟩
  have hfuel : h.countP (fun n => decide (n0.diff < n.diff)) < h.length :=
    countP_lt_length h _ n0 hn0m (by simp)
  obtain ⟨parent2, ca2, t2, hdesc, hca2⟩ :=
    inBuffer_descend_ok h key rest hs hlen h.length 0 l
      { t with node_accesses := t.node_accesses + 1 } n0 hn0 hll hfuel
  obtain ⟨c, hc⟩ : ∃ c, h[ca2]? = some c := ⟨h[ca2], List.getElem?_eq_getElem hca2⟩
  refine ⟨ca2, c, { t2 with string_comparisons := t2.string_comparisons + 1 }, hc, ?_⟩
  simp only [InBuffer.search_node, (deref_some_iff h 0 n0).mpr hn0, hl, hdesc,
    (deref_some_iff h ca2 c).mpr hc]
  split <;> rfl

/-! ## No stored diff lies past the end of its own key -/

theorem insert_node_diff_bound (h : Heap) (root : Ptr) (key : Key) (value : suburb_data)
    (t : comparison_tracker) (h2 : Heap) (root2 : Ptr) (t2 : comparison_tracker)
    (hres : insert_node h root key value t = .ok (h2, root2, t2))
    (hb : ∀ node ∈ h, node.diff ≤ 8 * node.key.length) :
    ∀ node ∈ h2, node.diff ≤ 8 * node.key.length := by
  intro node hmem
  cases root with
  | none =>
    rw [insert_node_null] at hres
    cases hres
    rcases List.mem_append.mp hmem with hm | hm
    · exact hb node hm
    · rw [List.mem_singleton] at hm
      subst hm
      exact Nat.zero_le _
  | some r =>
    obtain ⟨_, rootNode, parent, ca, c, diff, t1, t3, _, _, hc, hcd, hcase⟩ :=
      insert_node_some_inv h r key value t h2 root2 t2 hres
    have hcm : c ∈ h := List.mem_iff_getElem?.mpr ⟨ca, hc⟩
    rcases hcase with ⟨_, hh⟩ | ⟨_, bit, newNode, p, _, hnew, hp, hh⟩
    · subst hh
      rcases List.mem_or_eq_of_mem_set hmem with hm | hm
      · exact hb node hm
      · subst hm
        exact hb c hcm
    · obtain ⟨d, td, hcd2, hdm, _, _⟩ := compute_diff_some c.key key t1
      have hd : d = diff := by
        rw [hcd] at hcd2
        cases hcd2
        rfl
      have hnb : newNode.diff ≤ 8 * newNode.key.length := by
        rw [hnew]
        split
        · show diff ≤ 8 * key.length
          omega
        · show diff ≤ 8 * key.length
          omega
      have hin : ∀ x ∈ h ++ [newNode], x.diff ≤ 8 * x.key.length := by
        intro x hx
        rcases List.mem_append.mp hx with hm | hm
        · exact hb x hm
        · rw [List.mem_singleton] at hm
          subst hm
          exact hnb
      have hpm : p ∈ h ++ [newNode] := List.mem_iff_getElem?.mpr ⟨parent, hp⟩
      rcases hh with hh | hh <;> subst hh
      · rcases List.mem_or_eq_of_mem_set hmem with hm | hm
        · exact hin node hm
        · subst hm
          exact hin p hpm
      · rcases List.mem_or_eq_of_mem_set hmem with hm | hm
        · exact hin node hm
        · subst hm
          exact hin p hpm

theorem insert_all_diff_bound :
    ∀ (kvs : List (Key × suburb_data)) (s s2 : State), insert_all s kvs = .ok s2 →
      (∀ node ∈ s.heap, node.diff ≤ 8 * node.key.length) →
      ∀ node ∈ s2.heap, node.diff ≤ 8 * node.key.length := by
  intro kvs
  induction kvs with
  | nil =>
    intro s s2 hres hb
    simp only [insert_all] at hres
    cases hres
    exact hb
  | cons kv rest ih =>
    intro s s2 hres hb
    obtain ⟨k, v⟩ := kv
    simp only [insert_all, State.insert] at hres
    cases hins : insert_node s.heap s.root k v s.tracker with
    | error f => rw [hins] at hres; cases hres
    | ok x =>
      obtain ⟨h1, r1, t1⟩ := x
      rw [hins] at hres
      dsimp only at hres
      exact ih { heap := h1, root := r1, tracker := t1 } s2 hres
        (insert_node_diff_bound _ _ _ _ _ _ _ _ hins hb)

/-- In a trie built from the empty one, the diff of a node is a bit index of its own
key or of its terminator. -/
theorem build_diff_bound (kvs : List (Key × suburb_data)) (s : State)
    (hb : build kvs = .ok s) : ∀ node ∈ s.heap, node.diff ≤ 8 * node.key.length :=
  insert_all_diff_bound kvs State.empty s hb (by intro node hm; simp [State.empty] at hm)

/-- C3 (negative lookup, dict4.c): on the trie built by a sequence of `insert_node`
calls on keys taken from the driver's line buffer (fewer than 1024 bytes each), for
every query key that was never inserted, held in the driver's 1024-byte `search_key`
buffer (the key, its terminator, then `rest`, whatever it is), `search_node` returns
`NULL`.  `search_node` stores to no node: the heap is the same before and after the
call, and only the tracker changes.  Also on a key of its own size `search_node`
never returns a node for a key that was never inserted. -/
theorem C3_negative_lookup (kvs : List (Key × suburb_data)) (s : State) (key : Key)
    (rest : List Nat) (t : comparison_tracker) (hb : build kvs = .ok s)
    (hnew : key ∉ kvs.map Prod.fst)
    (hline : ∀ kv ∈ kvs, kv.1.length < LINE_BUFFER_SIZE)
    (hbuf : key.length + 1 + rest.length = LINE_BUFFER_SIZE) :
    (∃ t2, InBuffer.search_node s.heap s.root key rest t = .ok (none, t2))
    ∧ (∀ p t2, search_node s.heap s.root key t = .ok (p, t2) → p = none) := by
  obtain ⟨hinv, hkeys⟩ := build_inv kvs s hb
  have hdiff := build_diff_bound kvs s hb
  have hnokey : ∀ c ∈ s.heap, c.key ≠ key := by
    intro c hcm hk
    exact hnew (hk ▸ hkeys c hcm)
  constructor
  · rcases hinv with ⟨_, hroot⟩ | ⟨hroot, hs⟩
    · rw [hroot]
      exact ⟨t, rfl⟩
    · have hlen : ∀ node ∈ s.heap, node.diff / 8 ≤ key.length + rest.length := by
        intro node hm
        have h1 := hdiff node hm
        obtain ⟨kv, hkv, hkeq⟩ := List.mem_map.mp (hkeys node hm)
        have h2 := hline kv hkv
        rw [hkeq] at h2
        simp only [LINE_BUFFER_SIZE] at h2 hbuf
        omega
      obtain ⟨ca, c, t2, hc, hres⟩ := inBuffer_search_node_ok s.heap key rest t hs hlen
      have hcm : c ∈ s.heap := List.mem_iff_getElem?.mpr ⟨ca, hc⟩
      rw [if_neg (hnokey c hcm)] at hres
      rw [hroot]
      exact ⟨t2, hres⟩
  · intro p t2 hres
    cases p with
    | none => rfl
    | some a =>
      obtain ⟨c, hc, hk⟩ := search_node_found _ _ _ _ _ _ hres
      exact absurd hk (hnokey c (List.mem_iff_getElem?.mpr ⟨a, hc⟩))

set_option maxRecDepth 100000 in
/-- C3 at a concrete input: the trie of "abc" and "abd", searched for "a" held in a
1024-byte buffer that is 0 after the key: the descent reads bit 21 of the buffer
(byte 2, a 0), stays on the node of "abd", and the search returns `NULL`. -/
theorem C3_negative_lookup_witness :
    build [(key_abc, 1), (key_abd, 2)] = .ok state_abc_abd
    ∧ key_a ∉ [(key_abc, 1), (key_abd, 2)].map Prod.fst
    ∧ (∀ kv ∈ [(key_abc, 1), (key_abd, 2)], kv.1.length < LINE_BUFFER_SIZE)
    ∧ key_a.length + 1 + (List.replicate 1022 0).length = LINE_BUFFER_SIZE
    ∧ InBuffer.search_node state_abc_abd.heap state_abc_abd.root key_a
        (List.replicate 1022 0) comparison_tracker.zero
        = .ok (none, { bit_comparisons := 1, node_accesses := 2, string_comparisons := 1 })
    ∧ ∃ t2, InBuffer.search_node state_abc_abd.heap state_abc_abd.root key_a
        (List.replicate 1022 0) comparison_tracker.zero = .ok (none, t2) :=
  ⟨by decide, by decide, by decide, by rw [List.length_replicate]; rfl, by decide,
   (C3_negative_lookup [(key_abc, 1), (key_abd, 2)] state_abc_abd key_a
      (List.replicate 1022 0) comparison_tracker.zero (by decide) (by decide) (by decide)
      (by rw [List.length_replicate]; rfl)).1⟩

end Dict4

/-! ## The counters only grow -/

namespace Dict4

theorem tracker_le_refl (t : comparison_tracker) : t.le t :=
  ⟨le_refl _, le_refl _, le_refl _⟩

theorem tracker_le_trans {a b c : comparison_tracker} (hab : a.le b) (hbc : b.le c) :
    a.le c :=
  ⟨le_trans hab.1 hbc.1, le_trans hab.2.1 hbc.2.1, le_trans hab.2.2 hbc.2.2⟩

theorem tracker_le_node_access (t : comparison_tracker) :
    t.le { t with node_accesses := t.node_accesses + 1 } :=
  ⟨le_refl _, by show t.node_accesses ≤ t.node_accesses + 1; omega, le_refl _⟩

theorem tracker_le_string_comparison (t : comparison_tracker) :
    t.le { t with string_comparisons := t.string_comparisons + 1 } :=
  ⟨le_refl _, le_refl _, by show t.string_comparisons ≤ t.string_comparisons + 1; omega⟩

theorem getBit_le (s : Key) (i : Nat) (t : comparison_tracker) (bit : Nat)
    (t2 : comparison_tracker) (hres : getBit s i t = .ok (bit, t2)) : t.le t2 := by
  rcases getBit_cases s i t with ⟨_, hg⟩ | ⟨_, hg⟩
  · rw [hg] at hres
    cases hres
    exact ⟨by show t.bit_comparisons ≤ t.bit_comparisons + 1; omega, le_refl _, le_refl _⟩
  · rw [hg] at hres
    cases hres

theorem compute_diff_loop_le (key1 key2 : Key) (m : Nat) :
    ∀ (fuel i : Nat) (t : comparison_tracker) (d : Nat) (t2 : comparison_tracker),
      compute_diff_loop key1 key2 m fuel i t = .ok (d, t2) → t.le t2 := by
  intro fuel
  induction fuel with
  | zero => intro i t d t2 hres; cases hres
  | succ n ih =>
    intro i t d t2 hres
    simp only [compute_diff_loop] at hres
    by_cases hlt : i < m * BITS_PER_BYTE
    · rw [if_pos hlt] at hres
      cases hg1 : getBit key1 i t with
      | error f => rw [hg1] at hres; cases hres
      | ok x1 =>
        obtain ⟨bit1, t1⟩ := x1
        rw [hg1] at hres; dsimp only at hres
        cases hg2 : getBit key2 i t1 with
        | error f => rw [hg2] at hres; cases hres
        | ok x2 =>
          obtain ⟨bit2, t3⟩ := x2
          rw [hg2] at hres; dsimp only at hres
          have h13 : t.le t3 :=
            tracker_le_trans (getBit_le _ _ _ _ _ hg1) (getBit_le _ _ _ _ _ hg2)
          by_cases hne : bit1 ≠ bit2
          · rw [if_pos hne] at hres
            cases hres
            exact h13
          · rw [if_neg hne] at hres
            exact tracker_le_trans h13 (ih _ _ _ _ hres)
    · rw [if_neg hlt] at hres
      cases hres
      exact tracker_le_refl t

theorem compute_diff_le (key1 key2 : Option Key) (t : comparison_tracker) (d : Nat)
    (t2 : comparison_tracker) (hres : compute_diff key1 key2 t = .ok (d, t2)) : t.le t2 := by
  cases key1 with
  | none =>
    cases key2 with
    | none => cases hres
    | some k2 =>
      simp only [compute_diff] at hres
      cases hres
      exact tracker_le_refl t
  | some k1 =>
    cases key2 with
    | none => cases hres
    | some k2 =>
      simp only [compute_diff] at hres
      exact compute_diff_loop_le _ _ _ _ _ _ _ _ hres

theorem descend_le (h : Heap) (key : Key) (fuel parent : Nat) (child : Ptr)
    (t : comparison_tracker) (p2 : Nat) (c2 : Ptr) (t2 : comparison_tracker)
    (hres : descend h key fuel parent child t = .ok (p2, c2, t2)) : t.le t2 := by
  obtain ⟨path, _, ht2⟩ := descend_trace_of_descend h key _ _ _ _ _ _ _ hres
  rw [ht2]
  simp only [comparison_tracker.le, comparison_tracker.add]
  exact ⟨by omega, by omega, by omega⟩

theorem search_node_le (h : Heap) (root : Ptr) (key : Key) (t t2 : comparison_tracker)
    (p : Ptr) (hres : search_node h root key t = .ok (p, t2)) : t.le t2 := by
  cases root with
  | none =>
    simp only [search_node] at hres
    cases hres
    exact tracker_le_refl t
  | some r =>
    obtain ⟨_, _, _, t1, _, _, hdesc, _, ht2, _⟩ := search_node_some_inv h r key t t2 p hres
    rw [ht2]
    exact tracker_le_trans (tracker_le_node_access t)
      (tracker_le_trans (descend_le _ _ _ _ _ _ _ _ _ hdesc)
        (tracker_le_string_comparison t1))

/-- The last step of `insert_node`, the store into `parent` (dict4.c lines 161-166),
on any heap and from any tracker. -/
theorem insert_node_splice_le (hmid : Heap) (parent nn : Nat) (key : Key) (root : Ptr)
    (t4 : comparison_tracker) (h2 : Heap) (root2 : Ptr) (t2 : comparison_tracker)
    (hres :
      (match deref hmid (some parent) with
        | .error f => (.error f : Run (Heap × Ptr × comparison_tracker))
        | .ok p =>
          match getBit key p.diff t4 with
          | .error f => .error f
          | .ok (bit2, tracker5) =>
            if bit2 = 0 then
              .ok (hmid.set parent { p with left := some nn }, root, tracker5)
            else
              .ok (hmid.set parent { p with right := some nn }, root, tracker5))
        = .ok (h2, root2, t2)) : t4.le t2 := by
  cases hp : deref hmid (some parent) with
  | error f => rw [hp] at hres; cases hres
  | ok p =>
    rw [hp] at hres; dsimp only at hres
    cases hg2 : getBit key p.diff t4 with
    | error f => rw [hg2] at hres; cases hres
    | ok w =>
      obtain ⟨bit2, t5⟩ := w
      rw [hg2] at hres; dsimp only at hres
      have h45 : t4.le t5 := getBit_le _ _ _ _ _ hg2
      by_cases hb2 : bit2 = 0
      · rw [if_pos hb2] at hres
        cases hres
        exact h45
      · rw [if_neg hb2] at hres
        cases hres
        exact h45

theorem insert_node_le (h : Heap) (root : Ptr) (key : Key) (value : suburb_data)
    (t : comparison_tracker) (h2 : Heap) (root2 : Ptr) (t2 : comparison_tracker)
    (hres : insert_node h root key value t = .ok (h2, root2, t2)) : t.le t2 := by
  cases root with
  | none =>
    rw [insert_node_null] at hres
    cases hres
    exact tracker_le_refl t
  | some r =>
    simp only [insert_node] at hres
    cases hroot : deref h (some r) with
    | error f => rw [hroot] at hres; cases hres
    | ok rootNode =>
      rw [hroot] at hres; dsimp only at hres
      cases hdesc : descend h key h.length r rootNode.left t with
      | error f => rw [hdesc] at hres; cases hres
      | ok x =>
        obtain ⟨parent, child, t1⟩ := x
        rw [hdesc] at hres; dsimp only at hres
        have h01 : t.le t1 := descend_le _ _ _ _ _ _ _ _ _ hdesc
        cases child with
        | none => cases hres
        | some ca =>
          dsimp only at hres
          cases hc : deref h (some ca) with
          | error f => rw [hc] at hres; cases hres
          | ok c =>
            rw [hc] at hres; dsimp only at hres
            cases hcd : compute_diff (some c.key) (some key) t1 with
            | error f => rw [hcd] at hres; cases hres
            | ok y =>
              obtain ⟨diff, t3⟩ := y
              rw [hcd] at hres; dsimp only at hres
              have h03 : t.le { t3 with string_comparisons := t3.string_comparisons + 1 } :=
                tracker_le_trans h01
                  (tracker_le_trans (compute_diff_le _ _ _ _ _ hcd)
                    (tracker_le_string_comparison t3))
              by_cases hz : diff = 0
              · rw [if_pos hz] at hres
                cases hres
                exact h03
              · rw [if_neg hz] at hres
                simp only [create_node] at hres
                cases hg : getBit key diff
                    { t3 with string_comparisons := t3.string_comparisons + 1 } with
                | error f => rw [hg] at hres; cases hres
                | ok z =>
                  obtain ⟨bit, t4⟩ := z
                  rw [hg] at hres; dsimp only at hres
                  have h04 : t.le t4 := tracker_le_trans h03 (getBit_le _ _ _ _ _ hg)
                  rw [deref_append_new] at hres
                  dsimp only at hres
                  refine tracker_le_trans h04 ?_
                  exact insert_node_splice_le _ _ _ _ _ _ _ _ _ hres

end Dict4

/-! ## The counters do not steer -/

namespace Dict4

/-- C10 (counters do not influence results, dict4.c): for every heap, root, key and
record and any two initial trackers `t1`, `t2`, `insert_node` produces the same heap
and root (or the same fault) in both runs, `search_node` returns the same pointer (or
the same fault) and `getBit` the same bit.  The counters only grow; and whenever no
`int` counter overflows in either run (the initial and the final counters fit an
`int`), the final tracker of the run from `t2` is the final tracker of the run from
`t1` shifted by `t2 - t1`. -/
theorem C10_tracker_never_steers (h : Heap) (root : Ptr) (key : Key) (value : suburb_data)
    (bitIndex : Nat) (t1 t2 : comparison_tracker) :
    (insert_node h root key value t2).map (fun x => (x.1, x.2.1))
        = (insert_node h root key value t1).map (fun x => (x.1, x.2.1))
    ∧ (search_node h root key t2).map Prod.fst
        = (search_node h root key t1).map Prod.fst
    ∧ (getBit key bitIndex t2).map Prod.fst = (getBit key bitIndex t1).map Prod.fst
    ∧ (∀ x, insert_node h root key value t1 = .ok x →
        t1.fitsInt → x.2.2.fitsInt → t1.le x.2.2)
    ∧ (∀ x, search_node h root key t1 = .ok x → t1.fitsInt → x.2.fitsInt → t1.le x.2)
    ∧ (∀ x, getBit key bitIndex t1 = .ok x → t1.fitsInt → x.2.fitsInt → t1.le x.2)
    ∧ (∀ x1 x2, insert_node h root key value t1 = .ok x1 →
        insert_node h root key value t2 = .ok x2 →
        t1.fitsInt → t2.fitsInt → x1.2.2.fitsInt → x2.2.2.fitsInt →
        x2 = (x1.1, x1.2.1, x1.2.2.add (t2.sub t1)))
    ∧ (∀ x1 x2, search_node h root key t1 = .ok x1 → search_node h root key t2 = .ok x2 →
        t1.fitsInt → t2.fitsInt → x1.2.fitsInt → x2.2.fitsInt →
        x2 = (x1.1, x1.2.add (t2.sub t1)))
    ∧ (∀ x1 x2, getBit key bitIndex t1 = .ok x1 → getBit key bitIndex t2 = .ok x2 →
        t1.fitsInt → t2.fitsInt → x1.2.fitsInt → x2.2.fitsInt →
        x2 = (x1.1, x1.2.add (t2.sub t1))) := by
  have e1 := insert_node_add h root key value t1 (t2.sub t1)
  have e2 := search_node_add h root key t1 (t2.sub t1)
  have e3 := getBit_add key bitIndex t1 (t2.sub t1)
  rw [tracker_add_sub] at e1 e2 e3
  refine ⟨?_, ?_, ?_, ?_, ?_, ?_, ?_, ?_, ?_⟩
  · rw [e1, Run.map_map]; rfl
  · rw [e2, Run.map_map]; rfl
  · rw [e3, Run.map_map]; rfl
  · intro x hx _ _
    obtain ⟨h2, r2, u⟩ := x
    exact insert_node_le _ _ _ _ _ _ _ _ hx
  · intro x hx _ _
    obtain ⟨p, u⟩ := x
    exact search_node_le _ _ _ _ _ _ hx
  · intro x hx _ _
    obtain ⟨b, u⟩ := x
    exact getBit_le _ _ _ _ _ hx
  · intro x1 x2 h1 h2 _ _ _ _
    rw [e1, h1] at h2
    cases h2
    rfl
  · intro x1 x2 h1 h2 _ _ _ _
    rw [e2, h1] at h2
    cases h2
    rfl
  · intro x1 x2 h1 h2 _ _ _ _
    rw [e3, h1] at h2
    cases h2
    rfl

/-- C10 at a concrete input: the trie of "abc" and "abd" searched for "Ab", from the
tracker `{0, 0, 0}` and from `{5, 6, 7}`: both runs return `NULL`, the first leaves
`{1, 2, 1}`, the second `{6, 8, 8}`. -/
theorem C10_tracker_never_steers_witness :
    search_node state_abc_abd.heap state_abc_abd.root key_Ab comparison_tracker.zero
        = .ok (none, { bit_comparisons := 1, node_accesses := 2, string_comparisons := 1 })
    ∧ search_node state_abc_abd.heap state_abc_abd.root key_Ab
          { bit_comparisons := 5, node_accesses := 6, string_comparisons := 7 }
        = .ok (none, { bit_comparisons := 6, node_accesses := 8, string_comparisons := 8 })
    ∧ ((none, { bit_comparisons := 6, node_accesses := 8, string_comparisons := 8 }) :
          Ptr × comparison_tracker)
        = (none,
            ({ bit_comparisons := 1, node_accesses := 2, string_comparisons := 1 } :
                comparison_tracker).add
              (({ bit_comparisons := 5, node_accesses := 6, string_comparisons := 7 } :
                  comparison_tracker).sub comparison_tracker.zero)) :=
  ⟨by decide, by decide,
   (C10_tracker_never_steers state_abc_abd.heap state_abc_abd.root key_Ab 0 0
      comparison_tracker.zero
      { bit_comparisons := 5, node_accesses := 6, string_comparisons := 7 }).2.2.2.2.2.2.2.1
      (none, { bit_comparisons := 1, node_accesses := 2, string_comparisons := 1 })
      (none, { bit_comparisons := 6, node_accesses := 8, string_comparisons := 8 })
      (by decide) (by decide) (by decide) (by decide) (by decide) (by decide)⟩

end Dict4
